import Mathlib

/-!
Shallow embedding of `core/domain/exp_domain.py` (Oppia exploration domain
objects) and proofs about its migration driver, graph validators and
mutation operations.

Modelling conventions:
* Python dicts are association lists (`Dict α`) whose key order stands for
  the dict's iteration order; membership, lookup, insertion and deletion
  mirror dict semantics.  Where the source materializes an *unordered*
  Python `set` difference (`list(set(a) - set(b))`), the model fixes the
  key order of the underlying dict, since CPython's set iteration order is
  interpreter-defined.
* Exceptions are modelled with `Except PyError`.
* External collaborators (the interaction registry, the schema normalizer,
  the HTML sanitizer, `utils.require_valid_name`) are out of scope per the
  spec and enter as explicit function parameters.
-/

namespace ExpDomain

/-- Error kinds raised by the modelled code.  Each constructor corresponds
to a distinct raise site / Python exception class. -/
inductive PyError where
  /-- `utils.ValidationError` carrying the offending names
      (e.g. unreachable states, dead-end states, missing rule inputs). -/
  | validationError (names : List String)
  /-- Python `KeyError` on a dict lookup. -/
  | keyError (key : String)
  /-- Python `ValueError` (e.g. `str.index` finding no occurrence, or the
      precondition failures raised by the mutation API). -/
  | valueError (msg : String)
  /-- Generic `Exception` raised with a message. -/
  | exception (msg : String)
  /-- Python `NameError`: a local variable referenced before assignment. -/
  | nameError (var : String)
  /-- An exception propagating out of an external normalizer
      (`param_obj.normalize`). -/
  | normalizeError (key : String)
deriving DecidableEq, Repr

/-- Equality of `Except` results is decidable when both components are;
used to evaluate the concrete examples by `decide`. -/
instance {ε α : Type} [DecidableEq ε] [DecidableEq α] :
    DecidableEq (Except ε α) := fun a b =>
  match a, b with
  | Except.ok x, Except.ok y =>
    if h : x = y then isTrue (by rw [h]) else
      isFalse (fun hc => h (by cases hc; rfl))
  | Except.error x, Except.error y =>
    if h : x = y then isTrue (by rw [h]) else
      isFalse (fun hc => h (by cases hc; rfl))
  | Except.ok _, Except.error _ => isFalse (fun hc => Except.noConfusion hc)
  | Except.error _, Except.ok _ => isFalse (fun hc => Except.noConfusion hc)

/-- Association-list model of a Python dict keyed by strings. -/
abbrev Dict (α : Type) := List (String × α)

namespace Dict

/-- `d[k]` as an option (`None` models a `KeyError` site). -/
def get? {α : Type} : Dict α → String → Option α
  | [], _ => none
  | (k', v) :: rest, k => if k' = k then some v else get? rest k

/-- `k in d`. -/
def hasKey {α : Type} (d : Dict α) (k : String) : Bool :=
  (Dict.get? d k).isSome

/-- `d.keys()` in iteration order. -/
def keys {α : Type} (d : Dict α) : List String :=
  d.map (fun p => p.1)

/-- `del d[k]`. -/
def erase {α : Type} (d : Dict α) (k : String) : Dict α :=
  d.filter (fun p => p.1 ≠ k)

/-- `d[k] = v`: overwrite in place if present, else append. -/
def insert {α : Type} (d : Dict α) (k : String) (v : α) : Dict α :=
  if Dict.hasKey d k then d.map (fun p => if p.1 = k then (k, v) else p)
  else d ++ [(k, v)]

end Dict

/-! ## §4.5 Schema migration pipeline: the driver and the YAML entry points

`Exploration._migrate_to_latest_yaml_version` parses the YAML, reads
`schema_version`, rejects a missing or out-of-range version, and then walks
a cascade of fourteen `if exploration_schema_version == k:` blocks, each
applying `_convert_vk_dict_to_v(k+1)_dict` and bumping the local version
counter.  The v9→v10 step additionally receives the caller-supplied title
and category.  The conversion functions themselves are opaque dict
transformations here (the driver treats the dict opaquely except for
`schema_version`), so they are universally quantified parameters: this is
what lets us state that the driver at the ceiling invokes none of them. -/

/-- An exploration dict as seen by the migration driver: its declared
`schema_version` (absent key modelled as `none`) plus the rest of the
document, opaque to the driver. -/
structure ExpDoc where
  schema_version : Option Int
  payload : Nat
deriving DecidableEq, Repr

/-- `Exploration.CURRENT_EXP_SCHEMA_VERSION = 15`. -/
def CURRENT_EXP_SCHEMA_VERSION : Int := 15

/-- `Exploration.LAST_UNTITLED_SCHEMA_VERSION = 9`. -/
def LAST_UNTITLED_SCHEMA_VERSION : Int := 9

/-- The cascade of `if exploration_schema_version == k` blocks of
`_migrate_to_latest_yaml_version`, applied after the version checks.
`conv k` stands for `_convert_vk_dict_to_v(k+1)_dict`; `conv9` is the
title/category-taking v9→v10 step. -/
def migrationCascade (conv : Int → ExpDoc → ExpDoc)
    (conv9 : Option String → Option String → ExpDoc → ExpDoc)
    (title category : Option String) (d0 : ExpDoc) (v0 : Int) : ExpDoc × Int :=
  let s1 := if v0 = 1 then (conv 1 d0, (2 : Int)) else (d0, v0)
  let s2 := if s1.2 = 2 then (conv 2 s1.1, (3 : Int)) else s1
  let s3 := if s2.2 = 3 then (conv 3 s2.1, (4 : Int)) else s2
  let s4 := if s3.2 = 4 then (conv 4 s3.1, (5 : Int)) else s3
  let s5 := if s4.2 = 5 then (conv 5 s4.1, (6 : Int)) else s4
  let s6 := if s5.2 = 6 then (conv 6 s5.1, (7 : Int)) else s5
  let s7 := if s6.2 = 7 then (conv 7 s6.1, (8 : Int)) else s6
  let s8 := if s7.2 = 8 then (conv 8 s7.1, (9 : Int)) else s7
  let s9 := if s8.2 = 9 then (conv9 title category s8.1, (10 : Int)) else s8
  let s10 := if s9.2 = 10 then (conv 10 s9.1, (11 : Int)) else s9
  let s11 := if s10.2 = 11 then (conv 11 s10.1, (12 : Int)) else s10
  let s12 := if s11.2 = 12 then (conv 12 s11.1, (13 : Int)) else s11
  let s13 := if s12.2 = 13 then (conv 13 s12.1, (14 : Int)) else s12
  let s14 := if s13.2 = 14 then (conv 14 s13.1, (15 : Int)) else s13
  s14

/-- `Exploration._migrate_to_latest_yaml_version`, after YAML parsing
(`utils.dict_from_yaml` is external; the model starts from the parsed
dict).  Returns the migrated dict together with the *initial* schema
version, exactly as the source does. -/
def migrate_to_latest_yaml_version (conv : Int → ExpDoc → ExpDoc)
    (conv9 : Option String → Option String → ExpDoc → ExpDoc)
    (doc : ExpDoc) (title category : Option String) :
    Except PyError (ExpDoc × Int) :=
  match doc.schema_version with
  | none => .error (.exception "Invalid YAML file: no schema version specified.")
  | some v0 =>
    if 1 ≤ v0 ∧ v0 ≤ CURRENT_EXP_SCHEMA_VERSION then
      .ok ((migrationCascade conv conv9 title category doc v0).1, v0)
    else
      .error (.exception "Sorry, we can only process v1 to v15 exploration YAML files at present.")

/-- `Exploration.from_yaml` (schema versions ≥ 10): migrates, then rejects
documents whose *initial* version is ≤ `LAST_UNTITLED_SCHEMA_VERSION`.
The final `Exploration.from_dict` construction is outside the modelled
fragment; the model returns the migrated dict handed to it. -/
def from_yaml (conv : Int → ExpDoc → ExpDoc)
    (conv9 : Option String → Option String → ExpDoc → ExpDoc)
    (doc : ExpDoc) : Except PyError ExpDoc :=
  Except.bind (migrate_to_latest_yaml_version conv conv9 doc none none)
    (fun r =>
      if r.2 ≤ LAST_UNTITLED_SCHEMA_VERSION then
        .error (.exception "Expected a YAML version >= 10")
      else
        .ok r.1)

/-- `Exploration.from_untitled_yaml` (schema versions ≤ 9): migrates with
the caller-supplied title/category, then rejects documents whose initial
version is > `LAST_UNTITLED_SCHEMA_VERSION`. -/
def from_untitled_yaml (conv : Int → ExpDoc → ExpDoc)
    (conv9 : Option String → Option String → ExpDoc → ExpDoc)
    (title category : String) (doc : ExpDoc) : Except PyError ExpDoc :=
  Except.bind
    (migrate_to_latest_yaml_version conv conv9 doc (some title) (some category))
    (fun r =>
      if r.2 > LAST_UNTITLED_SCHEMA_VERSION then
        .error (.exception "Expected a YAML version <= 9")
      else
        .ok r.1)


/-! ## §4.1 Customization-argument normalization

`_get_full_customization_args` fills missing declared names with
`{'value': default_value}`; `_validate_customization_args_and_values`
calls it, then deletes undeclared keys (each logged as a warning), then
normalizes every declared value via the external schema normalizer inside
a `try/except: pass` (failures silently absorbed). -/

/-- A Python value as it appears in customization-arg and rule-spec input
dicts: a string (kept as its character list so substring search can be
modelled), or some other value, opaque except for identity. -/
inductive PyVal where
  | str (s : List Char)
  | num (n : Int)
  | other (tag : Nat)
deriving DecidableEq, Repr

/-- The single-key `{'value': ...}` dict wrapping every customization-arg
value. -/
structure CAValue where
  value : PyVal
deriving DecidableEq, Repr

/-- One customization-arg spec: `{name, default_value, schema}`.  The
schema is only ever handed to the external normalizer, so it is an opaque
tag. -/
structure CASpec where
  name : String
  default_value : PyVal
  schema : Nat
deriving DecidableEq, Repr

/-- `_get_full_customization_args(customization_args, ca_specs)`:
populates the given dict with `{'value': default_value}` for every
spec-declared name that is missing.  It does nothing else. -/
def _get_full_customization_args (customization_args : Dict CAValue)
    (ca_specs : List CASpec) : Dict CAValue :=
  ca_specs.foldl
    (fun ca spec =>
      if Dict.hasKey ca spec.name then ca
      else Dict.insert ca spec.name (CAValue.mk spec.default_value))
    customization_args

/-- `_validate_customization_args_and_values` (the `item_name`/`item_type`
arguments only feed log and error messages and are omitted).  `normalize`
is the external `schema_utils.normalize_against_schema`, `none` modelling
a raised exception. -/
def _validate_customization_args_and_values
    (normalize : PyVal → Nat → Option PyVal)
    (customization_args : Dict CAValue)
    (ca_specs_to_validate_against : List CASpec) : Dict CAValue :=
  let ca_spec_names := ca_specs_to_validate_against.map (fun sp => sp.name)
  let ca1 := _get_full_customization_args customization_args
    ca_specs_to_validate_against
  let extra_args := (Dict.keys ca1).filter (fun k => k ∉ ca_spec_names)
  let ca2 := extra_args.foldl (fun ca k => Dict.erase ca k) ca1
  ca_specs_to_validate_against.foldl
    (fun ca spec =>
      match Dict.get? ca spec.name with
      | some box =>
          match normalize box.value spec.schema with
          | some v2 => Dict.insert ca spec.name (CAValue.mk v2)
          | none => ca
      | none => ca)
    ca2


/-! ## RuleSpec and its validation

`RuleSpec.validate(rule_params_list, exp_param_specs_dict)` compares the
input-key set with the declared parameter names: leftover input keys are
only logged as a warning, leftover (missing) parameter names raise a
`ValidationError`.  It then walks `self.inputs.iteritems()`, looking each
input key up in `rule_params_dict` (built from `rule_params_list`), and
checks the value: a string containing a `\x7b\x7b` placeholder must name
an exploration parameter; any other value must be normalizable by the
declared parameter object. -/

/-- The character U+007B (left curly brace). -/
def lbrace : Char := Char.ofNat 123

/-- The character U+007D (right curly brace). -/
def rbrace : Char := Char.ofNat 125

/-- Python `haystack.index(pat)` on character lists: index of the first
occurrence of `pat`, `none` modelling the raised `ValueError`.  Also used
for the `pat in haystack` test via `isSome`. -/
def findSub (pat : List Char) : List Char → Option Nat
  | [] => if pat = [] then some 0 else none
  | c :: rest =>
    if pat.isPrefixOf (c :: rest) then some 0
    else (findSub pat rest).map (fun n => n + 1)

/-- `RuleSpec`: a rule type and its parameter inputs dict. -/
structure RuleSpec where
  rule_type : String
  inputs : Dict PyVal
deriving DecidableEq, Repr

/-- The body of the `for (param_name, param_value) in self.inputs` loop of
`RuleSpec.validate`, for one input whose parameter object has already been
found.  `param_obj` is the external typed-object instance, modelled by
whether its `normalize` accepts the value.  A string value containing
`\x7b\x7b` is treated as a parameter reference: the text between the
first `\x7b\x7b` (exclusive) and the first `\x7d\x7d` is looked up among the
exploration parameter-spec names. -/
def checkRuleInput (exp_param_specs : List String) (param_obj : PyVal → Bool)
    (param_name : String) (param_value : PyVal) : Except PyError Unit :=
  match param_value with
  | PyVal.str s =>
    match findSub [lbrace, lbrace] s with
    | some i =>
      match findSub [rbrace, rbrace] s with
      | none => Except.error (PyError.valueError "substring not found")
      | some j =>
        let param_spec_name := String.mk ((s.take j).drop (i + 2))
        if param_spec_name ∈ exp_param_specs then Except.ok ()
        else Except.error (PyError.validationError [param_spec_name])
    | none =>
      if param_obj (PyVal.str s) then Except.ok ()
      else Except.error (PyError.normalizeError param_name)
  | v =>
    if param_obj v then Except.ok ()
    else Except.error (PyError.normalizeError param_name)

/-- The `for (param_name, param_value) in self.inputs.iteritems()` loop:
`rule_params_dict[param_name]` raises a `KeyError` when the input key is
not a declared parameter name. -/
def checkRuleInputs (rule_params_list : List (String × (PyVal → Bool)))
    (exp_param_specs : List String) : Dict PyVal → Except PyError Unit
  | [] => Except.ok ()
  | (name, v) :: rest =>
    match Dict.get? rule_params_list name with
    | none => Except.error (PyError.keyError name)
    | some obj =>
      match checkRuleInput exp_param_specs obj name v with
      | Except.ok _ => checkRuleInputs rule_params_list exp_param_specs rest
      | Except.error e => Except.error e

/-- `RuleSpec.validate`.  `exp_param_specs_dict` enters only through key
membership, so it is modelled by its name list. -/
def RuleSpec.validate (rs : RuleSpec)
    (rule_params_list : List (String × (PyVal → Bool)))
    (exp_param_specs_dict : List String) : Except PyError Unit :=
  let input_keys := Dict.keys rs.inputs
  let param_names := rule_params_list.map (fun rp => rp.1)
  let leftover_param_names := param_names.filter (fun p => p ∉ input_keys)
  if leftover_param_names ≠ [] then
    Except.error (PyError.validationError leftover_param_names)
  else
    checkRuleInputs rule_params_list exp_param_specs_dict rs.inputs


/-! ## The exploration data model (value types, Interaction, State,
gadgets, Exploration) -/

/-- `ParamChange`: a parameter change record (its customization args are
inert for everything verified here). -/
structure ParamChange where
  name : String
  generator_id : String
deriving DecidableEq, Repr

/-- `Outcome`: destination state name, feedback HTML strings, parameter
changes. -/
structure Outcome where
  dest : String
  feedback : List String
  param_changes : List ParamChange
deriving DecidableEq, Repr

/-- `TriggerInstance`: trigger type plus (inert) customization args. -/
structure TriggerInstance where
  trigger_type : String
  customization_args : Dict CAValue
deriving DecidableEq, Repr

/-- `Fallback`: a trigger and the outcome applied when it fires. -/
structure Fallback where
  trigger : TriggerInstance
  outcome : Outcome
deriving DecidableEq, Repr

/-- `Hint`: a single sanitized hint text. -/
structure Hint where
  hint_text : String
deriving DecidableEq, Repr

/-- `AnswerGroup`: rule specs sharing one outcome, plus the `correct`
flag. -/
structure AnswerGroup where
  rule_specs : List RuleSpec
  outcome : Outcome
  correct : Bool
deriving DecidableEq, Repr

/-- `Solution`. -/
structure Solution where
  answer_is_exclusive : Bool
  correct_answer : PyVal
  explanation : String
deriving DecidableEq, Repr

/-- `InteractionInstance`. -/
structure InteractionInstance where
  id : Option String
  customization_args : Dict CAValue
  answer_groups : List AnswerGroup
  default_outcome : Option Outcome
  confirmed_unclassified_answers : List PyVal
  fallbacks : List Fallback
  hints : List Hint
  solution : Option Solution
deriving DecidableEq, Repr

/-- `InteractionInstance.is_terminal`: `self.id and
interaction_registry...get_interaction_by_id(self.id).is_terminal`.  The
registry is external (out of scope per the spec); `reg` is its
`is_terminal` view over interaction ids.  A `None` or empty id is falsy,
so such interactions are not terminal. -/
def InteractionInstance.is_terminal (reg : String → Bool)
    (it : InteractionInstance) : Bool :=
  match it.id with
  | none => false
  | some i => if i = "" then false else reg i

/-- `InteractionInstance.get_all_non_fallback_outcomes`: every answer
group's outcome plus the default outcome when present. -/
def InteractionInstance.get_all_non_fallback_outcomes
    (it : InteractionInstance) : List Outcome :=
  (it.answer_groups.map (fun ag => ag.outcome)) ++
    (match it.default_outcome with
     | some o => [o]
     | none => [])

/-- `InteractionInstance.get_all_outcomes`: the non-fallback outcomes plus
every fallback's outcome. -/
def InteractionInstance.get_all_outcomes (it : InteractionInstance) :
    List Outcome :=
  it.get_all_non_fallback_outcomes ++ it.fallbacks.map (fun fb => fb.outcome)

/-- `State`: content (the audio-translation map is inert here), parameter
changes, interaction, classifier model id. -/
structure State where
  content : String
  param_changes : List ParamChange
  interaction : InteractionInstance
  classifier_model_id : Option String
deriving DecidableEq, Repr

/-- `GadgetInstance`: type, unique name, per-state visibility, inert
customization args. -/
structure GadgetInstance where
  type : String
  name : String
  visible_in_states : List String
  customization_args : Dict CAValue
deriving DecidableEq, Repr

/-- `SkinInstance`: the panel layout mapping panel names to their gadget
lists. -/
structure SkinInstance where
  skin_id : String
  panel_contents_dict : Dict (List GadgetInstance)
deriving DecidableEq, Repr

/-- `Exploration`: the document.  Scalar metadata not read by any verified
operation (objective, tags, blurb, ...) is carried as plain fields. -/
structure Exploration where
  id : String
  title : String
  category : String
  language_code : String
  states : Dict State
  init_state_name : String
  param_specs : List String
  param_changes : List ParamChange
  version : Nat
  states_schema_version : Nat
  skin_instance : SkinInstance
deriving DecidableEq, Repr

/-! ## State mutation API used by C10 -/

/-- `Hint.__init__` passes the hint text through the external HTML
sanitizer (`html_cleaner.clean`). -/
def Hint.make (clean : String → String) (hint_text : String) : Hint :=
  Hint.mk (clean hint_text)

/-- `Hint.to_dict`: the hint dict is its (already cleaned) text. -/
def Hint.to_dict (h : Hint) : String := h.hint_text

/-- `Outcome.from_dict` / `Outcome.__init__`: reconstruction re-sanitizes
every feedback item. -/
def Outcome.from_dict_clean (clean : String → String) (o : Outcome) :
    Outcome :=
  { o with feedback := o.feedback.map clean }

/-- `Fallback.from_dict`: rebuilds the trigger and the outcome (the
latter re-sanitizing its feedback). -/
def Fallback.from_dict_clean (clean : String → String) (fb : Fallback) :
    Fallback :=
  { fb with outcome := Outcome.from_dict_clean clean fb.outcome }

/-- `State.update_interaction_hints`: replaces the interaction's hints by
`Hint.from_dict` of each hint dict (which re-cleans the text). -/
def State.update_interaction_hints (clean : String → String) (st : State)
    (hints_list : List String) : State :=
  { st with interaction :=
    { st.interaction with hints := hints_list.map (Hint.make clean) } }

/-- `State.update_interaction_fallbacks`.  The source first assigns
`self.interaction.fallbacks`, then assigns the local `hint_list` *only
inside* the `if self.interaction.fallbacks:` branch, yet passes it to
`update_interaction_hints` unconditionally: with an empty fallbacks list
the final call raises a `NameError` (after the fallbacks assignment has
already happened on the Python object). -/
def State.update_interaction_fallbacks (clean : String → String)
    (st : State) (fallbacks_list : List Fallback) : Except PyError State :=
  let newFallbacks := fallbacks_list.map (Fallback.from_dict_clean clean)
  let st1 := { st with interaction :=
    { st.interaction with fallbacks := newFallbacks } }
  if newFallbacks ≠ [] then
    let hint_list := newFallbacks.foldl
      (fun acc fb =>
        if fb.outcome.feedback ≠ [] then
          acc ++ [(Hint.make clean (fb.outcome.feedback.headD "")).to_dict]
        else acc) []
    Except.ok (State.update_interaction_hints clean st1 hint_list)
  else
    Except.error (PyError.nameError "hint_list")

/-! ## Exploration graph mutation (rename_state, delete_state) -/

/-- The object-level effect of the source loops that assign
`outcome.dest` through `get_all_outcomes()`: apply `f` to the destination
of every outcome of the state's interaction (answer groups, default
outcome, fallbacks). -/
def State.mapOutcomeDests (f : String → String) (st : State) : State :=
  { st with interaction :=
    { st.interaction with
        answer_groups := st.interaction.answer_groups.map
          (fun ag => { ag with outcome :=
            { ag.outcome with dest := f ag.outcome.dest } }),
        default_outcome := st.interaction.default_outcome.map
          (fun o => { o with dest := f o.dest }),
        fallbacks := st.interaction.fallbacks.map
          (fun fb => { fb with outcome :=
            { fb.outcome with dest := f fb.outcome.dest } }) } }

/-- `Exploration.rename_state`.  `validName` is the external
`utils.require_valid_name` (outside the provided sources), abstracted as
a predicate.  Precondition checks, then: copy under the new key, delete
the old key, update `init_state_name` if needed, and rewrite every
outcome destination equal to the old name (the loop runs over the
post-rename states, so the renamed state's own outcomes are rewritten
too).  The gadget-visibility helper
`_update_gadget_visibilities_for_renamed_state` is defined in the source
but never invoked here. -/
def Exploration.rename_state (validName : String → Bool) (exp : Exploration)
    (old_state_name new_state_name : String) : Except PyError Exploration :=
  if ¬ Dict.hasKey exp.states old_state_name then
    Except.error (PyError.valueError "State does not exist")
  else if old_state_name ≠ new_state_name ∧
      Dict.hasKey exp.states new_state_name then
    Except.error (PyError.valueError "Duplicate state name")
  else if old_state_name = new_state_name then
    Except.ok exp
  else if ¬ validName new_state_name then
    Except.error (PyError.validationError [new_state_name])
  else
    match Dict.get? exp.states old_state_name with
    | none => Except.error (PyError.keyError old_state_name)
    | some stOld =>
      let states1 := Dict.insert (Dict.erase exp.states old_state_name)
        new_state_name stOld
      let init1 := if exp.init_state_name = old_state_name then
        new_state_name else exp.init_state_name
      let states2 := states1.map (fun p =>
        (p.1, State.mapOutcomeDests
          (fun d => if d = old_state_name then new_state_name else d) p.2))
      Except.ok { exp with states := states2, init_state_name := init1 }

/-- `Exploration.delete_state`.  Precondition checks, then rewrite every
outcome destination equal to the deleted name to the *containing* state's
own name, then delete the entry.  The orphan-gadget guard lives only in
`_update_gadget_visibilities_for_deleted_state`, which is defined in the
source but never invoked here. -/
def Exploration.delete_state (exp : Exploration) (state_name : String) :
    Except PyError Exploration :=
  if ¬ Dict.hasKey exp.states state_name then
    Except.error (PyError.valueError "State does not exist")
  else if exp.init_state_name = state_name then
    Except.error (PyError.valueError
      "Cannot delete initial state of an exploration.")
  else
    let states2 := exp.states.map (fun p =>
      (p.1, State.mapOutcomeDests
        (fun d => if d = state_name then p.1 else d) p.2))
    Except.ok { exp with states := Dict.erase states2 state_name }

/-- `Exploration._get_gadget_instances_visible_in_state`. -/
def Exploration._get_gadget_instances_visible_in_state (exp : Exploration)
    (state_name : String) : List GadgetInstance :=
  exp.skin_instance.panel_contents_dict.foldl
    (fun acc p => acc ++ p.2.filter
      (fun g => state_name ∈ g.visible_in_states)) []

/-- `Exploration._update_gadget_visibilities_for_deleted_state`: removes
the deleted name from every affected gadget's visibility list and raises
when a gadget is left with no visible states.  Dead code in this
snapshot: `delete_state` never calls it. -/
def Exploration._update_gadget_visibilities_for_deleted_state
    (exp : Exploration) (state_name : String) : Except PyError Exploration :=
  let affected := exp._get_gadget_instances_visible_in_state state_name
  if affected.any (fun g => g.visible_in_states.erase state_name = []) then
    Except.error (PyError.validationError [state_name])
  else
    Except.ok { exp with skin_instance :=
      { exp.skin_instance with panel_contents_dict :=
          exp.skin_instance.panel_contents_dict.map (fun p =>
            (p.1, p.2.map (fun g =>
              if state_name ∈ g.visible_in_states then
                { g with visible_in_states :=
                    g.visible_in_states.erase state_name }
              else g))) } }


/-- `Exploration._update_gadget_visibilities_for_renamed_state`: replaces
the old name by the new one (and re-sorts) in every affected gadget's
visibility list.  Dead code in this snapshot: `rename_state` never calls
it. -/
def Exploration._update_gadget_visibilities_for_renamed_state
    (exp : Exploration) (old_state_name new_state_name : String) :
    Exploration :=
  { exp with skin_instance :=
    { exp.skin_instance with panel_contents_dict :=
        exp.skin_instance.panel_contents_dict.map (fun p =>
          (p.1, p.2.map (fun g =>
            if old_state_name ∈ g.visible_in_states then
              { g with visible_in_states :=
                  ((g.visible_in_states.erase old_state_name) ++
                    [new_state_name]).insertionSort (fun a b => a ≤ b) }
            else g))) } }

/-! ## Concrete fixtures used by examples and witnesses -/

/-- An interaction with no outcomes (a TextInput-style non-terminal). -/
def fixtureInteraction : InteractionInstance :=
  InteractionInstance.mk (some "TextInput") [] [] none [] [] [] none

/-- A state whose default outcome points at `dest`. -/
def fixtureStateTo (dest : String) : State :=
  State.mk "" []
    { fixtureInteraction with default_outcome := some (Outcome.mk dest [] []) }
    none

/-- A state with no outcomes at all. -/
def fixtureStatePlain : State :=
  State.mk "" [] fixtureInteraction none

/-- A terminal state under `fixtureReg`. -/
def fixtureStateEnd : State :=
  State.mk "" [] { fixtureInteraction with id := some "EndExploration" } none

/-- Example registry view: only `EndExploration` is terminal. -/
def fixtureReg : String → Bool := fun i => i = "EndExploration"

/-- Exploration `{A(init) → B, B}` with one gadget visible only in B. -/
def fixtureGadgetExp : Exploration :=
  Exploration.mk "exp0" "Title" "Category" "en"
    [("A", fixtureStateTo "B"), ("B", fixtureStatePlain)] "A" [] [] 0 12
    (SkinInstance.mk "conversation_v1"
      [("bottom", [GadgetInstance.mk "ScoreBar" "G" ["B"] []])])


/-! ## §4.2 Graph reachability validator and §4.3 dead-end validator

Both are FIFO traversals with a `processed_queue` list and a `curr_queue`
list.  They are modelled with an explicit fuel (`verificationFuel`) large
enough for the queue to drain, which is proved below.  The final
`list(set(states) - set(processed))` set difference is modelled in the
dict's key order (the source materializes an unordered Python set). -/

/-- The inner `for outcome in all_outcomes` enqueueing loop of
`_verify_all_states_reachable`: appends each destination not already in
the (growing) queue nor in the processed list. -/
def reachableEnqueue (outcomes : List Outcome)
    (processed queue : List String) : List String :=
  outcomes.foldl
    (fun q o => if o.dest ∉ q ∧ o.dest ∉ processed then q ++ [o.dest] else q)
    queue

/-- The `while curr_queue` loop of `_verify_all_states_reachable`.
Returns the final `(processed_queue, curr_queue)`; a dequeued name absent
from the states dict is the Python `KeyError` at
`self.states[curr_state_name]`. -/
def reachableLoop (reg : String → Bool) (states : Dict State) :
    Nat → List String → List String →
    Except PyError (List String × List String)
  | 0, processed, queue => Except.ok (processed, queue)
  | _ + 1, processed, [] => Except.ok (processed, [])
  | fuel + 1, processed, curr :: rest =>
    if curr ∈ processed then reachableLoop reg states fuel processed rest
    else
      let processed2 := processed ++ [curr]
      match Dict.get? states curr with
      | none => Except.error (PyError.keyError curr)
      | some st =>
        if st.interaction.is_terminal reg then
          reachableLoop reg states fuel processed2 rest
        else
          reachableLoop reg states fuel processed2
            (reachableEnqueue st.interaction.get_all_outcomes processed2 rest)

/-- Fuel that provably drains both traversal loops (see the drain
lemmas below). -/
def verificationFuel (states : Dict State) : Nat :=
  (states.length + 2) * (states.length + 2)

/-- `Exploration._verify_all_states_reachable`: breadth-first from
`init_state_name`; raises one `ValidationError` carrying every state name
not processed. -/
def _verify_all_states_reachable (reg : String → Bool) (exp : Exploration) :
    Except PyError Unit :=
  match reachableLoop reg exp.states (verificationFuel exp.states) []
      [exp.init_state_name] with
  | Except.error e => Except.error e
  | Except.ok pr =>
    if exp.states.length ≠ pr.1.length then
      Except.error (PyError.validationError
        ((Dict.keys exp.states).filter (fun n => n ∉ pr.1)))
    else Except.ok ()

/-- The inner full-scan of `_verify_no_dead_ends`: enqueue every state
(not already queued or processed) having a non-fallback outcome into the
just-processed state. -/
def deadEndEnqueue (states : Dict State) (curr : String)
    (processed queue : List String) : List String :=
  states.foldl
    (fun q p =>
      if p.1 ∉ q ∧ p.1 ∉ processed ∧
          (p.2.interaction.get_all_non_fallback_outcomes.any
            (fun o => o.dest = curr)) then
        q ++ [p.1]
      else q)
    queue

/-- The `while curr_queue` loop of `_verify_no_dead_ends`; returns the
final `(processed_queue, curr_queue)`. -/
def deadEndLoop (states : Dict State) :
    Nat → List String → List String → List String × List String
  | 0, processed, queue => (processed, queue)
  | _ + 1, processed, [] => (processed, [])
  | fuel + 1, processed, curr :: rest =>
    if curr ∈ processed then deadEndLoop states fuel processed rest
    else
      let processed2 := processed ++ [curr]
      deadEndLoop states fuel processed2
        (deadEndEnqueue states curr processed2 rest)

/-- The initial queue of `_verify_no_dead_ends`: every terminal state
name, in dict order. -/
def deadEndInitQueue (reg : String → Bool) (states : Dict State) :
    List String :=
  states.foldl
    (fun q p => if p.2.interaction.is_terminal reg then q ++ [p.1] else q) []

/-- `Exploration._verify_no_dead_ends`: reverse breadth-first from the
terminal states along non-fallback outcomes; raises one
`ValidationError` carrying every state name not processed. -/
def _verify_no_dead_ends (reg : String → Bool) (exp : Exploration) :
    Except PyError Unit :=
  let processed := (deadEndLoop exp.states (verificationFuel exp.states) []
    (deadEndInitQueue reg exp.states)).1
  if exp.states.length ≠ processed.length then
    Except.error (PyError.validationError
      ((Dict.keys exp.states).filter (fun n => n ∉ processed)))
  else
    Except.ok ()

/-- The semantic contract of `_verify_no_dead_ends`: the state can reach
a terminal state using non-fallback outcomes only. -/
inductive CanReachTerminal (reg : String → Bool) (states : Dict State) :
    String → Prop
  | terminal (n : String) (st : State) :
      Dict.get? states n = some st →
      st.interaction.is_terminal reg = true →
      CanReachTerminal reg states n
  | step (n : String) (st : State) (o : Outcome) :
      Dict.get? states n = some st →
      o ∈ st.interaction.get_all_non_fallback_outcomes →
      CanReachTerminal reg states o.dest →
      CanReachTerminal reg states n

/-- The C3 example: `{A(init) → B, B → C, C terminal, D unreferenced}`. -/
def fixtureReachExp : Exploration :=
  Exploration.mk "exp1" "Title" "Category" "en"
    [("A", fixtureStateTo "B"), ("B", fixtureStateTo "C"),
     ("C", fixtureStateEnd), ("D", fixtureStateTo "D")] "A" [] [] 0 12
    (SkinInstance.mk "conversation_v1" [])

/-- The C4 example: `{A(init) → B, B → A}` with no terminal state. -/
def fixtureDeadEndExp : Exploration :=
  Exploration.mk "exp2" "Title" "Category" "en"
    [("A", fixtureStateTo "B"), ("B", fixtureStateTo "A")] "A" [] [] 0 12
    (SkinInstance.mk "conversation_v1" [])


/-- Number of states not yet processed; the dominant component of the
traversal loops' termination measure. -/
def unprocessedCount (states : Dict State) (processed : List String) : Nat :=
  ((Dict.keys states).filter (fun k => k ∉ processed)).length

/-- Termination measure of the traversal loops: every iteration strictly
decreases it. -/
def loopMeasure (states : Dict State) (processed queue : List String) :
    Nat :=
  (states.length + 2) * unprocessedCount states processed + queue.length

/-! # Theorems -/

namespace Dict

@[simp] theorem get?_nil {α : Type} (k : String) : Dict.get? ([] : Dict α) k = none := rfl

@[simp] theorem get?_cons {α : Type} (k' k : String) (v : α) (rest : Dict α) :
    Dict.get? ((k', v) :: rest) k = if k' = k then some v else Dict.get? rest k := rfl

theorem get?_eq_some_of_mem_nodup {α : Type} {d : Dict α} {k : String} {v : α}
    (hnd : (Dict.keys d).Nodup) (hm : (k, v) ∈ d) : Dict.get? d k = some v := by
  induction d with
  | nil => cases hm
  | cons p rest ih =>
    rcases List.mem_cons.mp hm with hm1 | hm1
    · subst hm1; simp
    · have hk : p.1 ≠ k := by
        intro h
        have hmem : k ∈ Dict.keys rest := List.mem_map.mpr ⟨(k, v), hm1, rfl⟩
        rw [Dict.keys, List.map_cons, List.nodup_cons, h] at hnd
        exact hnd.1 hmem
      obtain ⟨k', v'⟩ := p
      simp only [get?_cons]
      rw [if_neg hk]
      have hnd' : (Dict.keys rest).Nodup := by
        rw [Dict.keys, List.map_cons, List.nodup_cons] at hnd
        exact hnd.2
      exact ih hnd' hm1

theorem mem_of_get?_eq_some {α : Type} {d : Dict α} {k : String} {v : α}
    (h : Dict.get? d k = some v) : (k, v) ∈ d := by
  induction d with
  | nil => simp [get?] at h
  | cons p rest ih =>
    obtain ⟨k', v'⟩ := p
    simp only [get?_cons] at h
    by_cases hk : k' = k
    · rw [if_pos hk] at h
      exact List.mem_cons.mpr (Or.inl (by cases h; rw [hk]))
    · rw [if_neg hk] at h
      exact List.mem_cons.mpr (Or.inr (ih h))

theorem key_mem_keys_of_get? {α : Type} {d : Dict α} {k : String} {v : α}
    (h : Dict.get? d k = some v) : k ∈ Dict.keys d :=
  List.mem_map.mpr ⟨(k, v), mem_of_get?_eq_some h, rfl⟩

theorem get?_isSome_iff_mem_keys {α : Type} (d : Dict α) (k : String) :
    (Dict.get? d k).isSome ↔ k ∈ Dict.keys d := by
  constructor
  · intro h
    obtain ⟨v, hv⟩ := Option.isSome_iff_exists.mp h
    exact key_mem_keys_of_get? hv
  · intro h
    induction d with
    | nil => simp [Dict.keys] at h
    | cons q rest ih =>
      obtain ⟨k', v'⟩ := q
      simp only [get?_cons]
      by_cases hkk : k' = k
      · simp [hkk]
      · rw [if_neg hkk]
        rw [Dict.keys, List.map_cons, List.mem_cons] at h
        rcases h with h | h
        · exact absurd h.symm hkk
        · exact ih h

end Dict

/-- C1: for every exploration dict whose declared `schema_version` is the
current version 15, `_migrate_to_latest_yaml_version` applies no conversion
step (the statement holds for *arbitrary* conversion functions, so none can
have been invoked) and returns the document unchanged, paired with the
initial schema version. -/
theorem migrate_noop_at_current_version
    (conv : Int → ExpDoc → ExpDoc)
    (conv9 : Option String → Option String → ExpDoc → ExpDoc)
    (title category : Option String) (doc : ExpDoc)
    (h : doc.schema_version = some 15) :
    migrate_to_latest_yaml_version conv conv9 doc title category =
      Except.ok (doc, 15) := by
  obtain ⟨sv, p⟩ := doc
  simp only at h
  subst h
  unfold migrate_to_latest_yaml_version migrationCascade
  norm_num [CURRENT_EXP_SCHEMA_VERSION]

/-- Witness for `migrate_noop_at_current_version` at a concrete document. -/
theorem migrate_noop_at_current_version_witness :
    migrate_to_latest_yaml_version (fun _ d => d) (fun _ _ d => d)
      (ExpDoc.mk (some 15) 0) none none =
      Except.ok (ExpDoc.mk (some 15) 0, 15) :=
  migrate_noop_at_current_version (fun _ d => d) (fun _ _ d => d) none none
    (ExpDoc.mk (some 15) 0) rfl

/-- The driver succeeds (with the cascaded dict and the initial version)
exactly on an in-range declared version. -/
theorem migrate_ok_of_in_range
    (conv : Int → ExpDoc → ExpDoc)
    (conv9 : Option String → Option String → ExpDoc → ExpDoc)
    (title category : Option String) (doc : ExpDoc) (v : Int)
    (h : doc.schema_version = some v) (h1 : 1 ≤ v) (h2 : v ≤ 15) :
    migrate_to_latest_yaml_version conv conv9 doc title category =
      Except.ok ((migrationCascade conv conv9 title category doc v).1, v) := by
  obtain ⟨sv, p⟩ := doc
  simp only at h
  subst h
  show (if 1 ≤ v ∧ v ≤ CURRENT_EXP_SCHEMA_VERSION then _ else _) = _
  rw [if_pos ⟨h1, (show v ≤ CURRENT_EXP_SCHEMA_VERSION from h2)⟩]

/-- Witness for `migrate_ok_of_in_range`. -/
theorem migrate_ok_of_in_range_witness :
    migrate_to_latest_yaml_version (fun _ d => d) (fun _ _ d => d)
      (ExpDoc.mk (some 12) 0) none none =
      Except.ok ((migrationCascade (fun _ d => d) (fun _ _ d => d) none none
        (ExpDoc.mk (some 12) 0) 12).1, 12) :=
  migrate_ok_of_in_range (fun _ d => d) (fun _ _ d => d) none none
    (ExpDoc.mk (some 12) 0) 12 rfl (by decide) (by decide)

/-- C5: version routing of the two YAML entry points.  `from_yaml` raises
when the declared initial schema version is ≤ 9; `from_untitled_yaml`
raises when it is ≥ 10; and both raise, via the shared driver, when the
version is missing or outside the range 1..15. -/
theorem yaml_entry_point_version_routing :
    (∀ (conv : Int → ExpDoc → ExpDoc)
       (conv9 : Option String → Option String → ExpDoc → ExpDoc)
       (doc : ExpDoc) (v : Int), doc.schema_version = some v → v ≤ 9 →
        ∃ e, from_yaml conv conv9 doc = Except.error e) ∧
    (∀ (conv : Int → ExpDoc → ExpDoc)
       (conv9 : Option String → Option String → ExpDoc → ExpDoc)
       (t c : String) (doc : ExpDoc) (v : Int),
        doc.schema_version = some v → 10 ≤ v →
        ∃ e, from_untitled_yaml conv conv9 t c doc = Except.error e) ∧
    (∀ (conv : Int → ExpDoc → ExpDoc)
       (conv9 : Option String → Option String → ExpDoc → ExpDoc)
       (t c : String) (doc : ExpDoc),
        (doc.schema_version = none ∨
          (∃ v, doc.schema_version = some v ∧ (v < 1 ∨ 15 < v))) →
        (∃ e, from_yaml conv conv9 doc = Except.error e) ∧
        (∃ e, from_untitled_yaml conv conv9 t c doc = Except.error e)) := by
  have hdriver : ∀ (conv : Int → ExpDoc → ExpDoc)
      (conv9 : Option String → Option String → ExpDoc → ExpDoc)
      (title category : Option String) (doc : ExpDoc),
      (doc.schema_version = none ∨
        (∃ v, doc.schema_version = some v ∧ (v < 1 ∨ 15 < v))) →
      ∃ e, migrate_to_latest_yaml_version conv conv9 doc title category =
        Except.error e := by
    intro conv conv9 title category doc h
    obtain ⟨sv, p⟩ := doc
    rcases h with h | ⟨v, hv, hrange⟩
    · simp only at h
      subst h
      exact ⟨_, rfl⟩
    · simp only at hv
      subst hv
      refine ⟨PyError.exception
        "Sorry, we can only process v1 to v15 exploration YAML files at present.", ?_⟩
      show (if 1 ≤ v ∧ v ≤ CURRENT_EXP_SCHEMA_VERSION then _ else _) = _
      rw [if_neg]
      rintro ⟨h1, h2⟩
      rcases hrange with h | h
      · exact absurd h1 (not_le.mpr h)
      · exact absurd h2 (not_le.mpr h)
  refine ⟨?_, ?_, ?_⟩
  · intro conv conv9 doc v hv hle
    by_cases h1 : 1 ≤ v
    · refine ⟨PyError.exception "Expected a YAML version >= 10", ?_⟩
      unfold from_yaml
      rw [migrate_ok_of_in_range conv conv9 none none doc v hv h1
        (le_trans hle (by decide))]
      show (if v ≤ LAST_UNTITLED_SCHEMA_VERSION then _ else _) = _
      rw [if_pos (show v ≤ LAST_UNTITLED_SCHEMA_VERSION from hle)]
    · obtain ⟨e, he⟩ := hdriver conv conv9 none none doc
        (Or.inr ⟨v, hv, Or.inl (not_le.mp h1)⟩)
      exact ⟨e, by unfold from_yaml; rw [he]; rfl⟩
  · intro conv conv9 t c doc v hv hge
    by_cases h2 : v ≤ 15
    · refine ⟨PyError.exception "Expected a YAML version <= 9", ?_⟩
      unfold from_untitled_yaml
      rw [migrate_ok_of_in_range conv conv9 (some t) (some c) doc v hv
        (le_trans (by decide) hge) h2]
      show (if v > LAST_UNTITLED_SCHEMA_VERSION then _ else _) = _
      rw [if_pos (show v > LAST_UNTITLED_SCHEMA_VERSION from
        lt_of_lt_of_le (by decide) hge)]
    · obtain ⟨e, he⟩ := hdriver conv conv9 (some t) (some c) doc
        (Or.inr ⟨v, hv, Or.inr (not_le.mp h2)⟩)
      exact ⟨e, by unfold from_untitled_yaml; rw [he]; rfl⟩
  · intro conv conv9 t c doc h
    obtain ⟨e1, he1⟩ := hdriver conv conv9 none none doc h
    obtain ⟨e2, he2⟩ := hdriver conv conv9 (some t) (some c) doc h
    exact ⟨⟨e1, by unfold from_yaml; rw [he1]; rfl⟩,
           ⟨e2, by unfold from_untitled_yaml; rw [he2]; rfl⟩⟩

/-- Witness for `yaml_entry_point_version_routing` at concrete documents:
versions 5 (rejected by `from_yaml`), 12 (rejected by
`from_untitled_yaml`), a missing version and version 99 (rejected by
both). -/
theorem yaml_entry_point_version_routing_witness :
    (∃ e, from_yaml (fun _ d => d) (fun _ _ d => d) (ExpDoc.mk (some 5) 0) =
      Except.error e) ∧
    (∃ e, from_untitled_yaml (fun _ d => d) (fun _ _ d => d) "t" "c"
      (ExpDoc.mk (some 12) 0) = Except.error e) ∧
    (∃ e, from_yaml (fun _ d => d) (fun _ _ d => d) (ExpDoc.mk none 0) =
      Except.error e) ∧
    (∃ e, from_untitled_yaml (fun _ d => d) (fun _ _ d => d) "t" "c"
      (ExpDoc.mk (some 99) 0) = Except.error e) :=
  ⟨yaml_entry_point_version_routing.1 (fun _ d => d) (fun _ _ d => d)
      (ExpDoc.mk (some 5) 0) 5 rfl (by decide),
   (yaml_entry_point_version_routing.2.1 (fun _ d => d) (fun _ _ d => d)
      "t" "c" (ExpDoc.mk (some 12) 0) 12 rfl (by decide)),
   (yaml_entry_point_version_routing.2.2 (fun _ d => d) (fun _ _ d => d)
      "t" "c" (ExpDoc.mk none 0) (Or.inl rfl)).1,
   (yaml_entry_point_version_routing.2.2 (fun _ d => d) (fun _ _ d => d)
      "t" "c" (ExpDoc.mk (some 99) 0)
      (Or.inr ⟨99, rfl, Or.inr (by decide)⟩)).2⟩

theorem dict_hasKey_cons {α : Type} (k' k : String) (v : α) (rest : Dict α) :
    Dict.hasKey ((k', v) :: rest) k =
      if k' = k then true else Dict.hasKey rest k := by
  unfold Dict.hasKey
  by_cases h : k' = k <;> simp [h]

theorem dict_get?_insert_self {α : Type} (d : Dict α) (k : String) (v : α) :
    Dict.get? (Dict.insert d k v) k = some v := by
  unfold Dict.insert
  by_cases h : Dict.hasKey d k
  · rw [if_pos h]
    induction d with
    | nil => simp [Dict.hasKey] at h
    | cons p rest ih =>
      obtain ⟨k', v'⟩ := p
      by_cases hk : k' = k
      · simp [hk]
      · rw [dict_hasKey_cons, if_neg hk] at h
        simpa [hk] using ih h
  · rw [if_neg h]
    induction d with
    | nil => simp
    | cons p rest ih =>
      obtain ⟨k', v'⟩ := p
      rw [dict_hasKey_cons] at h
      by_cases hk : k' = k
      · simp [hk] at h
      · rw [if_neg hk] at h
        simp only [List.cons_append, Dict.get?_cons, if_neg hk]
        exact ih h

theorem dict_get?_map_replace {α : Type} (d : Dict α) (k k' : String) (v : α)
    (hne : k ≠ k') :
    Dict.get? (d.map (fun p => if p.1 = k then (k, v) else p)) k' =
      Dict.get? d k' := by
  induction d with
  | nil => rfl
  | cons p rest ih =>
    obtain ⟨k'', v''⟩ := p
    by_cases hk : k'' = k
    · subst hk
      simp only [List.map_cons, eq_self_iff_true, if_true, Dict.get?_cons,
        if_neg hne]
      exact ih
    · simp only [List.map_cons, if_neg hk, Dict.get?_cons]
      by_cases hk4 : k'' = k'
      · simp [hk4]
      · simp only [if_neg hk4]
        exact ih

theorem dict_get?_append_single {α : Type} (d : Dict α) (k k' : String) (v : α)
    (hne : k ≠ k') :
    Dict.get? (d ++ [(k, v)]) k' = Dict.get? d k' := by
  induction d with
  | nil => simp [Dict.get?, if_neg hne]
  | cons p rest ih =>
    obtain ⟨k'', v''⟩ := p
    simp only [List.cons_append, Dict.get?_cons]
    by_cases hk4 : k'' = k'
    · simp [hk4]
    · simp only [if_neg hk4]
      exact ih

theorem dict_get?_insert_of_ne {α : Type} (d : Dict α) (k k' : String) (v : α)
    (hne : k ≠ k') :
    Dict.get? (Dict.insert d k v) k' = Dict.get? d k' := by
  unfold Dict.insert
  by_cases h : Dict.hasKey d k
  · rw [if_pos h]
    exact dict_get?_map_replace d k k' v hne
  · rw [if_neg h]
    exact dict_get?_append_single d k k' v hne

theorem dict_hasKey_insert_self {α : Type} (d : Dict α) (k : String) (v : α) :
    Dict.hasKey (Dict.insert d k v) k = true := by
  unfold Dict.hasKey
  rw [dict_get?_insert_self]
  rfl

theorem dict_hasKey_insert_of {α : Type} (d : Dict α) (k k' : String) (v : α)
    (h : Dict.hasKey d k' = true) :
    Dict.hasKey (Dict.insert d k v) k' = true := by
  by_cases hk : k = k'
  · rw [hk, dict_hasKey_insert_self]
  · unfold Dict.hasKey
    rw [dict_get?_insert_of_ne d k k' v hk]
    exact h

theorem get_full_customization_args_preserves
    (ca_specs : List CASpec) (ca : Dict CAValue) (k : String)
    (h : Dict.hasKey ca k = true) :
    Dict.hasKey (_get_full_customization_args ca ca_specs) k = true := by
  induction ca_specs generalizing ca with
  | nil => exact h
  | cons sp rest ih =>
    unfold _get_full_customization_args
    simp only [List.foldl_cons]
    by_cases hsp : Dict.hasKey ca sp.name
    · rw [if_pos hsp]
      exact ih ca h
    · rw [if_neg hsp]
      exact ih _ (dict_hasKey_insert_of _ _ _ _ h)

theorem get_full_customization_args_fills
    (ca_specs : List CASpec) (ca : Dict CAValue) (sp : CASpec)
    (h : sp ∈ ca_specs) :
    Dict.hasKey (_get_full_customization_args ca ca_specs) sp.name = true := by
  induction ca_specs generalizing ca with
  | nil => cases h
  | cons sp0 rest ih =>
    unfold _get_full_customization_args
    simp only [List.foldl_cons]
    rcases List.mem_cons.mp h with h0 | h0
    · subst h0
      by_cases hsp : Dict.hasKey ca sp.name
      · rw [if_pos hsp]
        exact get_full_customization_args_preserves rest ca sp.name hsp
      · rw [if_neg hsp]
        exact get_full_customization_args_preserves rest _ sp.name
          (dict_hasKey_insert_self _ _ _)
    · by_cases hsp : Dict.hasKey ca sp0.name
      · rw [if_pos hsp]
        exact ih ca h0
      · rw [if_neg hsp]
        exact ih _ h0

/-- C9 counterexample: the claim attributes the exclusion of undeclared
keys to `_get_full_customization_args`, but that function only fills
defaults and keeps the undeclared key "y". -/
theorem get_full_customization_args_keeps_extra_keys :
    Dict.get? (_get_full_customization_args
        [("y", CAValue.mk (PyVal.num 7))] [CASpec.mk "x" (PyVal.num 5) 0])
      "y" = some (CAValue.mk (PyVal.num 7)) := by
  decide

/-- C9 (amended): `_get_full_customization_args` fills every declared name
missing from the input with `{'value': default_value}` (yielding exactly
`{"x": {'value': 5}}` on the example) and keeps undeclared keys; the
exclusion of an undeclared key "y" is performed by the enclosing
`_validate_customization_args_and_values`, whose result excludes "y". -/
theorem customization_args_defaulting_amended :
    (_get_full_customization_args [] [CASpec.mk "x" (PyVal.num 5) 0] =
      [("x", CAValue.mk (PyVal.num 5))]) ∧
    (∀ w : CAValue,
      Dict.get? (_get_full_customization_args [("y", w)]
        [CASpec.mk "x" (PyVal.num 5) 0]) "y" = some w) ∧
    (∀ (normalize : PyVal → Nat → Option PyVal) (w : CAValue),
      Dict.get? (_validate_customization_args_and_values normalize [("y", w)]
        [CASpec.mk "x" (PyVal.num 5) 0]) "y" = none) ∧
    (∀ (ca : Dict CAValue) (ca_specs : List CASpec) (sp : CASpec),
      sp ∈ ca_specs →
      Dict.hasKey (_get_full_customization_args ca ca_specs) sp.name = true) := by
  refine ⟨by decide, ?_, ?_, ?_⟩
  · intro w
    simp [_get_full_customization_args, Dict.hasKey, Dict.get?, Dict.insert]
  · intro normalize w
    have hbase : Dict.get? ((["y"].foldl (fun ca k => Dict.erase ca k)
        (_get_full_customization_args [("y", w)]
          [CASpec.mk "x" (PyVal.num 5) 0]))) "y" = none := by
      simp [_get_full_customization_args, Dict.hasKey, Dict.get?, Dict.insert,
        Dict.erase, List.filter]
    unfold _validate_customization_args_and_values
    simp only [List.foldl_cons, List.foldl_nil]
    cases hx : Dict.get? (List.foldl (fun ca k => Dict.erase ca k)
        (_get_full_customization_args [("y", w)] [CASpec.mk "x" (PyVal.num 5) 0])
        ((Dict.keys (_get_full_customization_args [("y", w)]
          [CASpec.mk "x" (PyVal.num 5) 0])).filter
            (fun k => k ∉ [CASpec.mk "x" (PyVal.num 5) 0].map (fun sp => sp.name))))
        "x" with
    | none => simp [_get_full_customization_args, Dict.hasKey, Dict.get?,
        Dict.insert, Dict.erase, List.filter]
    | some box =>
      cases hn : normalize box.value 0 with
      | none => simp [hx, hn, _get_full_customization_args, Dict.hasKey,
          Dict.get?, Dict.insert, Dict.erase, List.filter]
      | some v2 =>
        simp only [hx, hn]
        rw [dict_get?_insert_of_ne _ _ _ _ (by decide)]
        simp [_get_full_customization_args, Dict.hasKey, Dict.get?,
          Dict.insert, Dict.erase, List.filter]
  · intro ca ca_specs sp h
    exact get_full_customization_args_fills ca_specs ca sp h

theorem dict_get?_eq_none_of_not_mem_keys {α : Type} {d : Dict α} {k : String}
    (h : k ∉ Dict.keys d) : Dict.get? d k = none := by
  cases hg : Dict.get? d k with
  | none => rfl
  | some v => exact absurd (Dict.key_mem_keys_of_get? hg) h

theorem checkRuleInputs_ok_iff
    (rule_params_list : List (String × (PyVal → Bool)))
    (exp_param_specs : List String) (l : Dict PyVal) :
    checkRuleInputs rule_params_list exp_param_specs l = Except.ok () ↔
      ∀ kv ∈ l, ∃ obj, Dict.get? rule_params_list kv.1 = some obj ∧
        checkRuleInput exp_param_specs obj kv.1 kv.2 = Except.ok () := by
  induction l with
  | nil => simp [checkRuleInputs]
  | cons kv rest ih =>
    obtain ⟨name, v⟩ := kv
    cases hg : Dict.get? rule_params_list name with
    | none =>
      constructor
      · intro h
        simp only [checkRuleInputs, hg] at h
        exact Except.noConfusion h
      · intro h
        obtain ⟨obj, hobj, _⟩ := h (name, v) (List.mem_cons.mpr (Or.inl rfl))
        rw [hg] at hobj
        cases hobj
    | some obj =>
      cases hc : checkRuleInput exp_param_specs obj name v with
      | ok u =>
        obtain ⟨⟩ := u
        constructor
        · intro h
          simp only [checkRuleInputs, hg, hc] at h
          intro kv2 hm
          rcases List.mem_cons.mp hm with hm1 | hm1
          · subst hm1
            exact ⟨obj, hg, hc⟩
          · exact (ih.mp h) kv2 hm1
        · intro h
          simp only [checkRuleInputs, hg, hc]
          exact ih.mpr (fun kv2 hm => h kv2 (List.mem_cons.mpr (Or.inr hm)))
      | error e =>
        constructor
        · intro h
          simp only [checkRuleInputs, hg, hc] at h
          exact Except.noConfusion h
        · intro h
          obtain ⟨obj2, hobj2, hok⟩ := h (name, v) (List.mem_cons.mpr (Or.inl rfl))
          rw [hg] at hobj2
          cases hobj2
          rw [hc] at hok
          cases hok

/-- C8 counterexample: with declared parameters `[x]` and inputs
`{x: 1, y: 2}` (an extra key `y`, no missing key), `RuleSpec.validate`
does not complete: the type-check loop raises a `KeyError` at `y`,
contradicting the claim that extra keys are merely warned and validation
otherwise completes. -/
theorem rulespec_validate_extra_key_keyerror :
    RuleSpec.validate
      (RuleSpec.mk "Equals" [("x", PyVal.num 1), ("y", PyVal.num 2)])
      [("x", fun _ => true)] [] =
      Except.error (PyError.keyError "y") := rfl

/-- C8 (amended): a declared parameter name missing from the inputs dict
raises a `ValidationError` listing exactly the missing names; an extra,
undeclared input key is only logged a warning at the key-set comparison,
but the subsequent per-input type-check loop then raises an (uncaught)
`KeyError` at it, so `validate` completes successfully exactly when the
input keys cover the declared names and every input passes its per-value
check (normalization by the declared type, or a placeholder naming an
existing exploration parameter). -/
theorem rulespec_validate_amended :
    (∀ (rs : RuleSpec) (params : List (String × (PyVal → Bool)))
       (specs : List String),
      (∃ p, p ∈ params.map (fun rp => rp.1) ∧ p ∉ Dict.keys rs.inputs) →
      ∃ l, RuleSpec.validate rs params specs =
          Except.error (PyError.validationError l) ∧ l ≠ [] ∧
        (∀ q, q ∈ l ↔ (q ∈ params.map (fun rp => rp.1) ∧
          q ∉ Dict.keys rs.inputs))) ∧
    (∀ (rs : RuleSpec) (params : List (String × (PyVal → Bool)))
       (specs : List String),
      RuleSpec.validate rs params specs = Except.ok () ↔
        ((∀ p, p ∈ params.map (fun rp => rp.1) → p ∈ Dict.keys rs.inputs) ∧
         (∀ kv ∈ rs.inputs, ∃ obj, Dict.get? params kv.1 = some obj ∧
           checkRuleInput specs obj kv.1 kv.2 = Except.ok ()))) ∧
    (∀ (rs : RuleSpec) (params : List (String × (PyVal → Bool)))
       (specs : List String),
      (∃ k, k ∈ Dict.keys rs.inputs ∧ k ∉ params.map (fun rp => rp.1)) →
      RuleSpec.validate rs params specs ≠ Except.ok ()) := by
  have hchar : ∀ (rs : RuleSpec) (params : List (String × (PyVal → Bool)))
      (specs : List String),
      RuleSpec.validate rs params specs = Except.ok () ↔
        ((∀ p, p ∈ params.map (fun rp => rp.1) → p ∈ Dict.keys rs.inputs) ∧
         (∀ kv ∈ rs.inputs, ∃ obj, Dict.get? params kv.1 = some obj ∧
           checkRuleInput specs obj kv.1 kv.2 = Except.ok ())) := by
    intro rs params specs
    unfold RuleSpec.validate
    by_cases hc : (params.map (fun rp => rp.1)).filter
        (fun p => p ∉ Dict.keys rs.inputs) ≠ []
    · rw [if_pos hc]
      constructor
      · intro h; cases h
      · rintro ⟨hcov, _⟩
        exfalso
        apply hc
        rw [List.filter_eq_nil_iff]
        intro p hp
        simp [hcov p hp]
    · rw [if_neg hc]
      rw [not_ne_iff, List.filter_eq_nil_iff] at hc
      rw [checkRuleInputs_ok_iff]
      constructor
      · intro h
        refine ⟨?_, h⟩
        intro p hp
        simpa using hc p hp
      · rintro ⟨_, h⟩; exact h
  refine ⟨?_, hchar, ?_⟩
  · intro rs params specs h
    obtain ⟨p, hp, hnp⟩ := h
    refine ⟨(params.map (fun rp => rp.1)).filter
      (fun q => q ∉ Dict.keys rs.inputs), ?_, ?_, ?_⟩
    · unfold RuleSpec.validate
      rw [if_pos]
      intro hnil
      have : p ∈ ([] : List String) := by
        rw [← hnil]
        rw [List.mem_filter]
        exact ⟨hp, by simpa using hnp⟩
      cases this
    · intro hnil
      have : p ∈ ([] : List String) := by
        rw [← hnil, List.mem_filter]
        exact ⟨hp, by simpa using hnp⟩
      cases this
    · intro q
      rw [List.mem_filter]
      simp
  · intro rs params specs h hok
    obtain ⟨k, hk, hnk⟩ := h
    obtain ⟨_, hvals⟩ := (hchar rs params specs).mp hok
    obtain ⟨kv, hkv, hfst⟩ := List.mem_map.mp hk
    obtain ⟨obj, hobj, _⟩ := hvals kv hkv
    rw [hfst] at hobj
    rw [dict_get?_eq_none_of_not_mem_keys (fun hm => hnk ?_)] at hobj
    · cases hobj
    · exact hfst ▸ hm

/-- Witness for `rulespec_validate_amended`: a missing parameter raises a
`ValidationError`, and an extra input key makes validation fail. -/
theorem rulespec_validate_amended_witness :
    (∃ l, RuleSpec.validate (RuleSpec.mk "Equals" [])
        [("x", fun _ => true)] [] =
        Except.error (PyError.validationError l) ∧ l ≠ [] ∧
        (∀ q, q ∈ l ↔ (q ∈ ["x"] ∧ q ∉ ([] : List String)))) ∧
    RuleSpec.validate
      (RuleSpec.mk "Equals" [("x", PyVal.num 1), ("y", PyVal.num 2)])
      [("x", fun _ => true)] [] ≠ Except.ok () := by
  constructor
  · obtain ⟨l, h1, h2, h3⟩ := rulespec_validate_amended.1
      (RuleSpec.mk "Equals" []) [("x", fun _ => true)] []
      ⟨"x", by simp, by simp [Dict.keys]⟩
    exact ⟨l, h1, h2, fun q => by
      rw [h3 q]
      simp [Dict.keys]⟩
  · exact rulespec_validate_amended.2.2
      (RuleSpec.mk "Equals" [("x", PyVal.num 1), ("y", PyVal.num 2)])
      [("x", fun _ => true)] []
      ⟨"y", by simp [Dict.keys], by simp⟩

theorem dict_get?_erase_self {α : Type} (d : Dict α) (k : String) :
    Dict.get? (Dict.erase d k) k = none := by
  induction d with
  | nil => rfl
  | cons p rest ih =>
    obtain ⟨k', v'⟩ := p
    by_cases hk : k' = k
    · simpa [Dict.erase, hk] using ih
    · simpa [Dict.erase, hk] using ih

theorem dict_get?_erase_ne {α : Type} (d : Dict α) (k k' : String)
    (hne : k' ≠ k) : Dict.get? (Dict.erase d k) k' = Dict.get? d k' := by
  induction d with
  | nil => rfl
  | cons p rest ih =>
    obtain ⟨k2, v2⟩ := p
    by_cases hk : k2 = k
    · have h1 : Dict.erase ((k2, v2) :: rest) k = Dict.erase rest k := by
        simp [Dict.erase, hk]
      rw [h1, ih, Dict.get?_cons, if_neg (fun h => hne (h.symm.trans hk))]
    · have h1 : Dict.erase ((k2, v2) :: rest) k =
          (k2, v2) :: Dict.erase rest k := by
        simp [Dict.erase, hk]
      rw [h1, Dict.get?_cons, Dict.get?_cons]
      by_cases hk2 : k2 = k'
      · rw [if_pos hk2, if_pos hk2]
      · rw [if_neg hk2, if_neg hk2, ih]

theorem dict_keys_erase {α : Type} (d : Dict α) (k : String) :
    Dict.keys (Dict.erase d k) = (Dict.keys d).filter (fun n => n ≠ k) := by
  induction d with
  | nil => rfl
  | cons p rest ih =>
    obtain ⟨k2, v2⟩ := p
    by_cases hk : k2 = k <;>
      simp [Dict.erase, Dict.keys, hk, List.filter] at ih ⊢ <;>
      exact ih

theorem dict_get?_map_val {α β : Type} (d : Dict α)
    (g : String → α → β) (k : String) :
    Dict.get? (d.map (fun p => (p.1, g p.1 p.2))) k =
      (Dict.get? d k).map (g k) := by
  induction d with
  | nil => rfl
  | cons p rest ih =>
    obtain ⟨k2, v2⟩ := p
    by_cases hk : k2 = k
    · subst hk
      simp
    · simpa [hk] using ih

theorem dict_mem_map_val {α β : Type} (d : Dict α)
    (g : String → α → β) (q : String × β)
    (h : q ∈ d.map (fun p => (p.1, g p.1 p.2))) :
    ∃ p ∈ d, q = (p.1, g p.1 p.2) := by
  obtain ⟨p, hp, he⟩ := List.mem_map.mp h
  exact ⟨p, hp, he.symm⟩

theorem dict_mem_erase {α : Type} {d : Dict α} {k : String}
    {p : String × α} (h : p ∈ Dict.erase d k) : p ∈ d ∧ p.1 ≠ k := by
  unfold Dict.erase at h
  have := List.mem_filter.mp h
  exact ⟨this.1, by simpa using this.2⟩

theorem get_all_outcomes_mapOutcomeDests (f : String → String) (st : State) :
    (State.mapOutcomeDests f st).interaction.get_all_outcomes =
      st.interaction.get_all_outcomes.map
        (fun o => { o with dest := f o.dest }) := by
  unfold State.mapOutcomeDests InteractionInstance.get_all_outcomes
    InteractionInstance.get_all_non_fallback_outcomes
  cases st.interaction.default_outcome with
  | none =>
    simp only [Option.map_none', List.map_append, List.map_map]
    rfl
  | some o =>
    simp only [Option.map_some', List.map_append, List.map_map, List.map_cons,
      List.map_nil]
    rfl

/-- C2: deleting a non-initial existing state X removes it from the
states mapping, rewrites every outcome destination equal to X (answer
group, default and fallback outcomes alike) to the name of the state
containing the outcome, and afterwards no outcome destination anywhere
equals X. -/
theorem delete_state_rewires (exp : Exploration) (X : String)
    (hmem : Dict.hasKey exp.states X = true)
    (hinit : exp.init_state_name ≠ X) :
    ∃ exp2, exp.delete_state X = Except.ok exp2 ∧
      Dict.get? exp2.states X = none ∧
      Dict.keys exp2.states = (Dict.keys exp.states).filter (fun n => n ≠ X) ∧
      (∀ n, n ≠ X →
        Dict.get? exp2.states n = (Dict.get? exp.states n).map
          (State.mapOutcomeDests (fun d => if d = X then n else d))) ∧
      (∀ n st, Dict.get? exp.states n = some st → n ≠ X →
        ∃ st2, Dict.get? exp2.states n = some st2 ∧
          st2.interaction.get_all_outcomes =
            st.interaction.get_all_outcomes.map
              (fun o => { o with dest := if o.dest = X then n else o.dest })) ∧
      (∀ p ∈ exp2.states, ∀ o ∈ p.2.interaction.get_all_outcomes,
        o.dest ≠ X) := by
  have hdel : exp.delete_state X =
      Except.ok { exp with
        states := Dict.erase
          (exp.states.map (fun p =>
            (p.1, State.mapOutcomeDests
              (fun d => if d = X then p.1 else d) p.2))) X } := by
    unfold Exploration.delete_state
    rw [if_neg (not_not_intro hmem), if_neg hinit]
  refine ⟨_, hdel, ?_, ?_, ?_, ?_, ?_⟩
  · exact dict_get?_erase_self _ X
  · rw [dict_keys_erase]
    congr 1
    unfold Dict.keys
    rw [List.map_map]
    rfl
  · intro n hn
    rw [dict_get?_erase_ne _ X n hn]
    exact dict_get?_map_val exp.states
      (fun m st0 => State.mapOutcomeDests (fun d => if d = X then m else d) st0) n
  · intro n st hst hn
    refine ⟨State.mapOutcomeDests (fun d => if d = X then n else d) st, ?_, ?_⟩
    · rw [dict_get?_erase_ne _ X n hn]
      have hmv := dict_get?_map_val exp.states
        (fun m st0 => State.mapOutcomeDests
          (fun d => if d = X then m else d) st0) n
      rw [hst] at hmv
      exact hmv
    · exact get_all_outcomes_mapOutcomeDests _ st
  · intro p hp o ho
    obtain ⟨hp2, hpne⟩ := dict_mem_erase hp
    obtain ⟨q, hq, he⟩ := dict_mem_map_val exp.states
      (fun m st0 => State.mapOutcomeDests
        (fun d => if d = X then m else d) st0) p hp2
    subst he
    rw [get_all_outcomes_mapOutcomeDests] at ho
    obtain ⟨o0, _, he0⟩ := List.mem_map.mp ho
    subst he0
    simp only
    by_cases hd : o0.dest = X
    · rw [if_pos hd]
      exact hpne
    · rw [if_neg hd]
      exact hd

/-- Witness for `delete_state_rewires` on the concrete fixture
(deleting B from `{A(init) → B, B}`). -/
theorem delete_state_rewires_witness :
    ∃ exp2, fixtureGadgetExp.delete_state "B" = Except.ok exp2 ∧
      Dict.get? exp2.states "B" = none ∧
      Dict.keys exp2.states =
        (Dict.keys fixtureGadgetExp.states).filter (fun n => n ≠ "B") ∧
      (∀ n, n ≠ "B" →
        Dict.get? exp2.states n = (Dict.get? fixtureGadgetExp.states n).map
          (State.mapOutcomeDests (fun d => if d = "B" then n else d))) ∧
      (∀ n st, Dict.get? fixtureGadgetExp.states n = some st → n ≠ "B" →
        ∃ st2, Dict.get? exp2.states n = some st2 ∧
          st2.interaction.get_all_outcomes =
            st.interaction.get_all_outcomes.map
              (fun o => { o with dest := if o.dest = "B" then n else o.dest })) ∧
      (∀ p ∈ exp2.states, ∀ o ∈ p.2.interaction.get_all_outcomes,
        o.dest ≠ "B") :=
  delete_state_rewires fixtureGadgetExp "B" (by decide) (by decide)

/-- C6 (code bug): `rename_state("B", "C")` does rewrite outcome
destinations, but leaves the skin's gadget visibility untouched: the
gadget still claims visibility in the no-longer-existing state B, because
`_update_gadget_visibilities_for_renamed_state` is never invoked. -/
theorem rename_state_leaves_gadget_visibility_stale :
    ∃ exp2, Exploration.rename_state (fun _ => true) fixtureGadgetExp
        "B" "C" = Except.ok exp2 ∧
      Dict.get? exp2.states "B" = none ∧
      (Dict.get? exp2.states "C").isSome = true ∧
      (∀ p ∈ exp2.states, ∀ o ∈ p.2.interaction.get_all_outcomes,
        o.dest ≠ "B") ∧
      exp2.skin_instance = fixtureGadgetExp.skin_instance ∧
      exp2._get_gadget_instances_visible_in_state "C" = [] ∧
      exp2._get_gadget_instances_visible_in_state "B" =
        [GadgetInstance.mk "ScoreBar" "G" ["B"] []] := by
  refine ⟨{ fixtureGadgetExp with
    states := [("A", fixtureStateTo "C"), ("C", fixtureStatePlain)] },
    by decide, by decide, by decide, by decide, rfl, by decide, by decide⟩

/-- C7 (code bug): deleting B, the only state in which the gadget is
visible, is *not* rejected: `delete_state` succeeds, the skin is left
untouched with the gadget now referencing a deleted state, while the
dead-code helper `_update_gadget_visibilities_for_deleted_state` would
have raised. -/
theorem delete_state_skips_gadget_orphan_check :
    ∃ exp2, fixtureGadgetExp.delete_state "B" = Except.ok exp2 ∧
      Dict.get? exp2.states "B" = none ∧
      exp2.skin_instance = fixtureGadgetExp.skin_instance ∧
      exp2._get_gadget_instances_visible_in_state "B" =
        [GadgetInstance.mk "ScoreBar" "G" ["B"] []] ∧
      Exploration._update_gadget_visibilities_for_deleted_state
        fixtureGadgetExp "B" =
        Except.error (PyError.validationError ["B"]) := by
  refine ⟨{ fixtureGadgetExp with
    states := [("A", fixtureStateTo "A")] },
    by decide, by decide, rfl, by decide, by decide⟩

theorem foldl_guard_append {α β : Type} (P : α → Prop) [DecidablePred P]
    (g : α → β) (l : List α) (acc : List β) :
    l.foldl (fun acc2 x => if P x then acc2 ++ [g x] else acc2) acc =
      acc ++ (l.filter (fun x => P x)).map g := by
  induction l generalizing acc with
  | nil => simp
  | cons x rest ih =>
    by_cases h : P x
    · simp [h, ih, List.append_assoc]
    · simp [h, ih]

/-- C10: `update_interaction_fallbacks` with a non-empty list replaces
the interaction's fallbacks and synthesizes the hints from the first
feedback line of each fallback having non-empty feedback (each line
passing through the sanitizer once in `Fallback.from_dict`, once in the
`Hint` constructor, once in `Hint.from_dict`); with an empty list it
raises a `NameError`, because the local `hint_list` is assigned only in
the non-empty branch yet passed to `update_interaction_hints`
unconditionally. -/
theorem update_interaction_fallbacks_spec (clean : String → String)
    (st : State) (fbs : List Fallback) :
    (fbs = [] → State.update_interaction_fallbacks clean st fbs =
      Except.error (PyError.nameError "hint_list")) ∧
    (fbs ≠ [] → State.update_interaction_fallbacks clean st fbs =
      Except.ok { st with interaction :=
        { st.interaction with
            fallbacks := fbs.map (Fallback.from_dict_clean clean),
            hints := ((fbs.map (Fallback.from_dict_clean clean)).filter
                (fun fb => fb.outcome.feedback ≠ [])).map
              (fun fb =>
                Hint.mk (clean (clean (fb.outcome.feedback.headD "")))) } }) := by
  constructor
  · intro h
    subst h
    rfl
  · intro h
    unfold State.update_interaction_fallbacks
    rw [if_pos (by simpa using h)]
    simp only [State.update_interaction_hints,
      foldl_guard_append (fun fb : Fallback => fb.outcome.feedback ≠ [])
        (fun fb : Fallback =>
          (Hint.make clean (fb.outcome.feedback.headD "")).to_dict)]
    simp [Hint.make, Hint.to_dict]

/-- Witness for `update_interaction_fallbacks_spec`: the empty list
raises the `NameError`; a singleton list succeeds. -/
theorem update_interaction_fallbacks_spec_witness :
    State.update_interaction_fallbacks id fixtureStatePlain [] =
      Except.error (PyError.nameError "hint_list") ∧
    ∃ st2, State.update_interaction_fallbacks id fixtureStatePlain
      [Fallback.mk (TriggerInstance.mk "click" [])
        (Outcome.mk "A" ["fb"] [])] = Except.ok st2 :=
  ⟨(update_interaction_fallbacks_spec id fixtureStatePlain []).1 rfl,
   ⟨_, (update_interaction_fallbacks_spec id fixtureStatePlain
      [Fallback.mk (TriggerInstance.mk "click" [])
        (Outcome.mk "A" ["fb"] [])]).2 (List.cons_ne_nil _ _)⟩⟩

theorem filter_notmem_append_singleton (l P : List String) (c : String) :
    l.filter (fun x => x ∉ P ++ [c]) =
      (l.filter (fun x => x ∉ P)).filter (fun x => x ≠ c) := by
  rw [List.filter_filter]
  apply List.filter_congr
  intro x _
  by_cases hp : x ∈ P <;> by_cases hc : x = c <;> simp [hp, hc]

theorem nodup_subset_length_le {l1 l2 : List String}
    (hnd : l1.Nodup) (hsub : ∀ x ∈ l1, x ∈ l2) : l1.length ≤ l2.length := by
  calc l1.length = l1.toFinset.card := (List.toFinset_card_of_nodup hnd).symm
    _ ≤ l2.toFinset.card := Finset.card_le_card (fun x hx => by
        rw [List.mem_toFinset] at hx ⊢
        exact hsub x hx)
    _ ≤ l2.length := l2.toFinset_card_le

theorem nodup_subset_full_mem {l1 l2 : List String}
    (hnd1 : l1.Nodup) (hnd2 : l2.Nodup) (hsub : ∀ x ∈ l1, x ∈ l2)
    (hlen : l2.length ≤ l1.length) : ∀ x ∈ l2, x ∈ l1 := by
  intro x hx
  have hfin : l1.toFinset = l2.toFinset := by
    apply Finset.eq_of_subset_of_card_le
    · intro y hy
      rw [List.mem_toFinset] at hy ⊢
      exact hsub y hy
    · rw [List.toFinset_card_of_nodup hnd1, List.toFinset_card_of_nodup hnd2]
      exact hlen
  rw [← List.mem_toFinset, hfin, List.mem_toFinset]
  exact hx

theorem unprocessedCount_append_lt (states : Dict State)
    (processed : List String) (curr : String)
    (hc : curr ∈ Dict.keys states) (hp : curr ∉ processed) :
    unprocessedCount states (processed ++ [curr]) <
      unprocessedCount states processed := by
  unfold unprocessedCount
  rw [filter_notmem_append_singleton]
  apply List.length_filter_lt_length_iff_exists.mpr
  refine ⟨curr, ?_, by simp⟩
  rw [List.mem_filter]
  exact ⟨hc, by simpa using hp⟩

theorem dict_keys_length (states : Dict State) :
    (Dict.keys states).length = states.length := by
  unfold Dict.keys
  exact List.length_map states _

theorem reachableEnqueue_cons (o : Outcome) (rest : List Outcome)
    (processed queue : List String) :
    reachableEnqueue (o :: rest) processed queue =
      reachableEnqueue rest processed
        (if o.dest ∉ queue ∧ o.dest ∉ processed then queue ++ [o.dest]
         else queue) := rfl

theorem reachableEnqueue_structure (outcomes : List Outcome)
    (processed : List String) :
    ∀ queue, ∃ ext, reachableEnqueue outcomes processed queue = queue ++ ext ∧
      ext.Nodup ∧
      ∀ x ∈ ext, (∃ o ∈ outcomes, o.dest = x) ∧ x ∉ processed ∧ x ∉ queue := by
  induction outcomes with
  | nil =>
    intro queue
    exact ⟨[], by simp [reachableEnqueue], List.nodup_nil, by simp⟩
  | cons o rest ih =>
    intro queue
    rw [reachableEnqueue_cons]
    by_cases hg : o.dest ∉ queue ∧ o.dest ∉ processed
    · rw [if_pos hg]
      obtain ⟨ext, heq, hnd, hprop⟩ := ih (queue ++ [o.dest])
      refine ⟨o.dest :: ext, ?_, ?_, ?_⟩
      · rw [heq, List.append_assoc]
        rfl
      · exact List.nodup_cons.mpr
          ⟨fun hmem => (hprop o.dest hmem).2.2 (by simp), hnd⟩
      · intro x hx
        rcases List.mem_cons.mp hx with h | h
        · subst h
          exact ⟨⟨o, by simp, rfl⟩, hg.2, hg.1⟩
        · obtain ⟨⟨o2, ho2, hd⟩, hp, hq⟩ := hprop x h
          exact ⟨⟨o2, by simp [ho2], hd⟩, hp, fun hmem => hq (by simp [hmem])⟩
    · rw [if_neg hg]
      obtain ⟨ext, heq, hnd, hprop⟩ := ih queue
      refine ⟨ext, heq, hnd, ?_⟩
      intro x hx
      obtain ⟨⟨o2, ho2, hd⟩, hp, hq⟩ := hprop x hx
      exact ⟨⟨o2, by simp [ho2], hd⟩, hp, hq⟩

theorem deadEndEnqueue_cons (p : String × State)
    (rest : Dict State) (curr : String) (processed queue : List String) :
    deadEndEnqueue (p :: rest) curr processed queue =
      deadEndEnqueue rest curr processed
        (if p.1 ∉ queue ∧ p.1 ∉ processed ∧
            (p.2.interaction.get_all_non_fallback_outcomes.any
              (fun o => o.dest = curr)) then
          queue ++ [p.1]
        else queue) := rfl

theorem deadEndEnqueue_structure (states : Dict State) (curr : String)
    (processed : List String) :
    ∀ queue, ∃ ext, deadEndEnqueue states curr processed queue =
        queue ++ ext ∧
      ext.Nodup ∧
      ∀ x ∈ ext, x ∉ processed ∧ x ∉ queue ∧
        ∃ p ∈ states, p.1 = x ∧
          (p.2.interaction.get_all_non_fallback_outcomes.any
            (fun o => o.dest = curr)) = true := by
  induction states with
  | nil =>
    intro queue
    exact ⟨[], by simp [deadEndEnqueue], List.nodup_nil, by simp⟩
  | cons p rest ih =>
    intro queue
    rw [deadEndEnqueue_cons]
    by_cases hg : p.1 ∉ queue ∧ p.1 ∉ processed ∧
        (p.2.interaction.get_all_non_fallback_outcomes.any
          (fun o => o.dest = curr))
    · rw [if_pos hg]
      obtain ⟨ext, heq, hnd, hprop⟩ := ih (queue ++ [p.1])
      refine ⟨p.1 :: ext, ?_, ?_, ?_⟩
      · rw [heq, List.append_assoc]
        rfl
      · exact List.nodup_cons.mpr
          ⟨fun hmem => (hprop p.1 hmem).2.1 (by simp), hnd⟩
      · intro x hx
        rcases List.mem_cons.mp hx with h | h
        · subst h
          exact ⟨hg.2.1, hg.1, p, by simp, rfl, hg.2.2⟩
        · obtain ⟨hp, hq, p2, hp2, he, hany⟩ := hprop x h
          exact ⟨hp, fun hmem => hq (by simp [hmem]), p2, by simp [hp2],
            he, hany⟩
    · rw [if_neg hg]
      obtain ⟨ext, heq, hnd, hprop⟩ := ih queue
      refine ⟨ext, heq, hnd, ?_⟩
      intro x hx
      obtain ⟨hp, hq, p2, hp2, he, hany⟩ := hprop x hx
      exact ⟨hp, hq, p2, by simp [hp2], he, hany⟩

theorem deadEndEnqueue_complete (states : Dict State) (curr : String)
    (processed : List String) (x : String) :
    ∀ queue, (x ∈ queue ∨ ∃ p ∈ states, p.1 = x ∧ x ∉ processed ∧
      (p.2.interaction.get_all_non_fallback_outcomes.any
        (fun o => o.dest = curr)) = true) →
    x ∈ deadEndEnqueue states curr processed queue := by
  induction states with
  | nil =>
    intro queue h
    rcases h with h | ⟨p, hp, _⟩
    · simpa [deadEndEnqueue] using h
    · cases hp
  | cons p rest ih =>
    intro queue h
    rw [deadEndEnqueue_cons]
    have hq1 : ∀ y ∈ queue,
        y ∈ (if p.1 ∉ queue ∧ p.1 ∉ processed ∧
            (p.2.interaction.get_all_non_fallback_outcomes.any
              (fun o => o.dest = curr)) then queue ++ [p.1] else queue) := by
      intro y hy
      by_cases hg : p.1 ∉ queue ∧ p.1 ∉ processed ∧
          (p.2.interaction.get_all_non_fallback_outcomes.any
            (fun o => o.dest = curr))
      · rw [if_pos hg]
        exact List.mem_append_left _ hy
      · rw [if_neg hg]
        exact hy
    rcases h with h | ⟨p2, hp2, he, hnp, hany⟩
    · exact ih _ (Or.inl (hq1 x h))
    · rcases List.mem_cons.mp hp2 with hc | hc
    
      · subst hc
        subst he
        by_cases hin : p2.1 ∈ queue
        · exact ih _ (Or.inl (hq1 _ hin))
        · rw [if_pos ⟨hin, hnp, hany⟩]
          exact ih _ (Or.inl (List.mem_append_right _ (by simp)))
      · exact ih _ (Or.inr ⟨p2, hc, he, hnp, hany⟩)

theorem deadEndLoop_cons (states : Dict State) (fuel : Nat)
    (processed : List String) (curr : String) (rest : List String) :
    deadEndLoop states (fuel + 1) processed (curr :: rest) =
      if curr ∈ processed then deadEndLoop states fuel processed rest
      else deadEndLoop states fuel (processed ++ [curr])
        (deadEndEnqueue states curr (processed ++ [curr]) rest) := rfl

theorem deadEndLoop_mono (states : Dict State) :
    ∀ (fuel : Nat) (processed queue : List String) (x : String),
      x ∈ processed → x ∈ (deadEndLoop states fuel processed queue).1 := by
  intro fuel
  induction fuel with
  | zero => intro processed queue x hx; exact hx
  | succ fuel ih =>
    intro processed queue x hx
    cases queue with
    | nil => exact hx
    | cons curr rest =>
      rw [deadEndLoop_cons]
      by_cases h : curr ∈ processed
      · rw [if_pos h]
        exact ih _ _ _ hx
      · rw [if_neg h]
        exact ih _ _ _ (List.mem_append_left _ hx)

theorem deadEndLoop_absorb (states : Dict State) :
    ∀ (fuel : Nat) (processed queue : List String),
      (deadEndLoop states fuel processed queue).2 = [] →
      ∀ x ∈ queue, x ∈ (deadEndLoop states fuel processed queue).1 := by
  intro fuel
  induction fuel with
  | zero =>
    intro processed queue hq x hx
    have hq2 : queue = [] := hq
    subst hq2
    cases hx
  | succ fuel ih =>
    intro processed queue hq x hx
    cases queue with
    | nil => cases hx
    | cons curr rest =>
      rw [deadEndLoop_cons] at hq ⊢
      by_cases h : curr ∈ processed
      · rw [if_pos h] at hq ⊢
        rcases List.mem_cons.mp hx with hx1 | hx1
        · subst hx1
          exact deadEndLoop_mono states _ _ _ _ h
        · exact ih _ _ hq x hx1
      · rw [if_neg h] at hq ⊢
        rcases List.mem_cons.mp hx with hx1 | hx1
        · subst hx1
          exact deadEndLoop_mono states _ _ _ _ (List.mem_append_right _ (by simp))
        · obtain ⟨ext, heq, -, -⟩ :=
            deadEndEnqueue_structure states curr (processed ++ [curr]) rest
          refine ih _ _ hq x ?_
          rw [heq]
          exact List.mem_append_left _ hx1

theorem deadEndLoop_props (states : Dict State) :
    ∀ (fuel : Nat) (processed queue : List String),
      processed.Nodup → (∀ x ∈ processed, x ∈ Dict.keys states) →
      (∀ x ∈ queue, x ∈ Dict.keys states) →
      (deadEndLoop states fuel processed queue).1.Nodup ∧
        ∀ x ∈ (deadEndLoop states fuel processed queue).1,
          x ∈ Dict.keys states := by
  intro fuel
  induction fuel with
  | zero => intro processed queue h1 h2 _; exact ⟨h1, h2⟩
  | succ fuel ih =>
    intro processed queue h1 h2 h3
    cases queue with
    | nil => exact ⟨h1, h2⟩
    | cons curr rest =>
      rw [deadEndLoop_cons]
      by_cases h : curr ∈ processed
      · rw [if_pos h]
        exact ih _ _ h1 h2 (fun x hx => h3 x (List.mem_cons_of_mem _ hx))
      · rw [if_neg h]
        obtain ⟨ext, heq, -, hprop⟩ :=
          deadEndEnqueue_structure states curr (processed ++ [curr]) rest
        rw [heq]
        refine ih _ _ ?_ ?_ ?_
        · simp [List.nodup_append, h1, h]
        · intro x hx
          rcases List.mem_append.mp hx with hx1 | hx1
          · exact h2 x hx1
          · rw [List.mem_singleton] at hx1
            subst hx1
            exact h3 x (List.mem_cons_self _ _)
        · intro x hx
          rcases List.mem_append.mp hx with hx1 | hx1
          · exact h3 x (List.mem_cons_of_mem _ hx1)
          · obtain ⟨-, -, p, hp, he, -⟩ := hprop x hx1
            subst he
            exact List.mem_map.mpr ⟨p, hp, rfl⟩

theorem deadEndLoop_sound (reg : String → Bool) (states : Dict State)
    (hnd : (Dict.keys states).Nodup) :
    ∀ (fuel : Nat) (processed queue : List String),
      (∀ x ∈ processed, CanReachTerminal reg states x) →
      (∀ x ∈ queue, CanReachTerminal reg states x) →
      ∀ x ∈ (deadEndLoop states fuel processed queue).1,
        CanReachTerminal reg states x := by
  intro fuel
  induction fuel with
  | zero => intro processed queue h1 _ x hx; exact h1 x hx
  | succ fuel ih =>
    intro processed queue h1 h2 x hx
    cases queue with
    | nil => exact h1 x hx
    | cons curr rest =>
      rw [deadEndLoop_cons] at hx
      by_cases h : curr ∈ processed
      · rw [if_pos h] at hx
        exact ih _ _ h1 (fun y hy => h2 y (List.mem_cons_of_mem _ hy)) x hx
      · rw [if_neg h] at hx
        have hcurr : CanReachTerminal reg states curr :=
          h2 curr (List.mem_cons_self _ _)
        have h1b : ∀ y ∈ processed ++ [curr],
            CanReachTerminal reg states y := by
          intro y hy
          rcases List.mem_append.mp hy with hy1 | hy1
          · exact h1 y hy1
          · rw [List.mem_singleton] at hy1
            subst hy1
            exact hcurr
        obtain ⟨ext, heq, -, hprop⟩ :=
          deadEndEnqueue_structure states curr (processed ++ [curr]) rest
        rw [heq] at hx
        refine ih _ _ h1b ?_ x hx
        intro y hy
        rcases List.mem_append.mp hy with hy1 | hy1
        · exact h2 y (List.mem_cons_of_mem _ hy1)
        · obtain ⟨-, -, p, hp, he, hany⟩ := hprop y hy1
          obtain ⟨o, ho, hdest⟩ := List.any_eq_true.mp hany
          subst he
          refine CanReachTerminal.step p.1 p.2 o
            (Dict.get?_eq_some_of_mem_nodup hnd ?_) ho ?_
          · exact (Prod.mk.eta ▸ hp)
          · rw [of_decide_eq_true hdest]
            exact hcurr

theorem deadEndLoop_closure (states : Dict State) :
    ∀ (fuel : Nat) (processed queue : List String),
      (deadEndLoop states fuel processed queue).2 = [] →
      (∀ x c, (∃ p ∈ states, p.1 = x ∧
          ∃ o ∈ p.2.interaction.get_all_non_fallback_outcomes, o.dest = c) →
        c ∈ processed → x ∈ processed ∨ x ∈ queue) →
      ∀ x c, (∃ p ∈ states, p.1 = x ∧
          ∃ o ∈ p.2.interaction.get_all_non_fallback_outcomes, o.dest = c) →
        c ∈ (deadEndLoop states fuel processed queue).1 →
        x ∈ (deadEndLoop states fuel processed queue).1 := by
  intro fuel
  induction fuel with
  | zero =>
    intro processed queue hq hpre x c hedge hc
    have hq2 : queue = [] := hq
    subst hq2
    rcases hpre x c hedge hc with h | h
    · exact h
    · cases h
  | succ fuel ih =>
    intro processed queue hq hpre x c hedge hc
    cases queue with
    | nil =>
      rcases hpre x c hedge hc with h | h
      · exact h
      · cases h
    | cons curr rest =>
      rw [deadEndLoop_cons] at hq hc ⊢
      by_cases h : curr ∈ processed
      · rw [if_pos h] at hq hc ⊢
        refine ih _ _ hq ?_ x c hedge hc
        intro y d hedge2 hd
        rcases hpre y d hedge2 hd with hy | hy
        · exact Or.inl hy
        · rcases List.mem_cons.mp hy with hy1 | hy1
          · subst hy1
            exact Or.inl h
          · exact Or.inr hy1
      · rw [if_neg h] at hq hc ⊢
        obtain ⟨ext, heq, -, -⟩ :=
          deadEndEnqueue_structure states curr (processed ++ [curr]) rest
        refine ih _ _ hq ?_ x c hedge hc
        intro y d hedge2 hd
        by_cases hyp : y ∈ processed ++ [curr]
        · exact Or.inl hyp
        · rcases List.mem_append.mp hd with hd1 | hd1
          · rcases hpre y d hedge2 hd1 with hy | hy
            · exact Or.inl (List.mem_append_left _ hy)
            · rcases List.mem_cons.mp hy with hy1 | hy1
              · subst hy1
                exact Or.inl (List.mem_append_right _ (by simp))
              · refine Or.inr ?_
                rw [heq]
                exact List.mem_append_left _ hy1
          · rw [List.mem_singleton] at hd1
            obtain ⟨p, hp, he, o, ho, hdest⟩ := hedge2
            refine Or.inr (deadEndEnqueue_complete states curr
              (processed ++ [curr]) y rest (Or.inr ⟨p, hp, he, hyp, ?_⟩))
            exact List.any_eq_true.mpr
              ⟨o, ho, decide_eq_true (by rw [hdest, hd1])⟩
  
theorem deadEndLoop_drains (states : Dict State) :
    ∀ (fuel : Nat) (processed queue : List String),
      (∀ x ∈ queue, x ∈ Dict.keys states) →
      loopMeasure states processed queue ≤ fuel →
      (deadEndLoop states fuel processed queue).2 = [] := by
  intro fuel
  induction fuel with
  | zero =>
    intro processed queue _ hm
    have hlen : queue.length = 0 := by
      unfold loopMeasure at hm
      omega
    have hq : queue = [] := List.length_eq_zero.mp hlen
    subst hq
    rfl
  | succ fuel ih =>
    intro processed queue hq hm
    cases queue with
    | nil => rfl
    | cons curr rest =>
      rw [deadEndLoop_cons]
      by_cases h : curr ∈ processed
      · rw [if_pos h]
        refine ih _ _ (fun x hx => hq x (List.mem_cons_of_mem _ hx)) ?_
        unfold loopMeasure at hm ⊢
        rw [List.length_cons] at hm
        omega
      · rw [if_neg h]
        obtain ⟨ext, heq, hnd, hprop⟩ :=
          deadEndEnqueue_structure states curr (processed ++ [curr]) rest
        rw [heq]
        have hcurr : curr ∈ Dict.keys states :=
          hq curr (List.mem_cons_self _ _)
        have hu : unprocessedCount states (processed ++ [curr]) + 1 ≤
            unprocessedCount states processed :=
          unprocessedCount_append_lt states processed curr hcurr h
        have hextsub : ∀ x ∈ ext, x ∈ Dict.keys states := by
          intro x hx
          obtain ⟨-, -, p, hp, he, -⟩ := hprop x hx
          subst he
          exact List.mem_map.mpr ⟨p, hp, rfl⟩
        have hext : ext.length ≤ states.length := by
          have h2 := nodup_subset_length_le hnd hextsub
          rw [dict_keys_length] at h2
          exact h2
        refine ih _ _ ?_ ?_
        · intro x hx
          rcases List.mem_append.mp hx with hx1 | hx1
          · exact hq x (List.mem_cons_of_mem _ hx1)
          · exact hextsub x hx1
        · have hmul := Nat.mul_le_mul_left (states.length + 2) hu
          rw [Nat.mul_succ] at hmul
          unfold loopMeasure at hm ⊢
          rw [List.length_cons] at hm
          rw [List.length_append]
          omega

theorem deadEndInitQueue_mem_aux (reg : String → Bool) (states : Dict State) :
    ∀ (acc : List String) (x : String),
      (x ∈ states.foldl
        (fun q p => if p.2.interaction.is_terminal reg then q ++ [p.1]
          else q) acc) ↔
        x ∈ acc ∨ ∃ p ∈ states, p.1 = x ∧
          p.2.interaction.is_terminal reg = true := by
  induction states with
  | nil =>
    intro acc x
    simp
  | cons p rest ih =>
    intro acc x
    rw [List.foldl_cons]
    by_cases h : p.2.interaction.is_terminal reg = true
    · rw [if_pos h, ih]
      constructor
      · rintro (hx | ⟨p2, hp2, he2, ht2⟩)
        · rcases List.mem_append.mp hx with h1 | h1
          · exact Or.inl h1
          · exact Or.inr ⟨p, List.mem_cons_self _ _,
              (List.mem_singleton.mp h1).symm, h⟩
        · exact Or.inr ⟨p2, List.mem_cons_of_mem _ hp2, he2, ht2⟩
      · rintro (hx | ⟨p2, hp2, he2, ht2⟩)
        · exact Or.inl (List.mem_append_left _ hx)
        · rcases List.mem_cons.mp hp2 with h2 | h2
          · subst h2
            exact Or.inl (List.mem_append_right _ (by simp [he2]))
          · exact Or.inr ⟨p2, h2, he2, ht2⟩
    · rw [if_neg h, ih]
      constructor
      · rintro (hx | ⟨p2, hp2, he2, ht2⟩)
        · exact Or.inl hx
        · exact Or.inr ⟨p2, List.mem_cons_of_mem _ hp2, he2, ht2⟩
      · rintro (hx | ⟨p2, hp2, he2, ht2⟩)
        · exact Or.inl hx
        · rcases List.mem_cons.mp hp2 with h2 | h2
          · subst h2
            exact absurd ht2 h
          · exact Or.inr ⟨p2, h2, he2, ht2⟩

theorem deadEndInitQueue_mem (reg : String → Bool) (states : Dict State)
    (x : String) :
    x ∈ deadEndInitQueue reg states ↔
      ∃ p ∈ states, p.1 = x ∧ p.2.interaction.is_terminal reg = true := by
  unfold deadEndInitQueue
  rw [deadEndInitQueue_mem_aux]
  simp

theorem deadEndInitQueue_length_aux (reg : String → Bool)
    (states : Dict State) :
    ∀ acc : List String,
      (states.foldl
        (fun q p => if p.2.interaction.is_terminal reg then q ++ [p.1]
          else q) acc).length ≤ acc.length + states.length := by
  induction states with
  | nil => intro acc; simp
  | cons p rest ih =>
    intro acc
    rw [List.foldl_cons]
    by_cases h : p.2.interaction.is_terminal reg = true
    · rw [if_pos h]
      refine le_trans (ih _) ?_
      rw [List.length_append, List.length_singleton, List.length_cons]
      omega
    · rw [if_neg h]
      refine le_trans (ih _) ?_
      rw [List.length_cons]
      omega

theorem deadEndInitQueue_length (reg : String → Bool) (states : Dict State) :
    (deadEndInitQueue reg states).length ≤ states.length := by
  have := deadEndInitQueue_length_aux reg states []
  simpa using this

theorem loopMeasure_init_le (states : Dict State) (queue : List String)
    (hq : queue.length ≤ states.length) :
    loopMeasure states [] queue ≤ verificationFuel states := by
  unfold loopMeasure verificationFuel
  have h1 : unprocessedCount states [] ≤ states.length := by
    unfold unprocessedCount
    calc ((Dict.keys states).filter (fun k => k ∉ ([] : List String))).length
        ≤ (Dict.keys states).length := List.length_filter_le _ _
      _ = states.length := dict_keys_length states
  have h2 := Nat.mul_le_mul_left (states.length + 2) h1
  have h3 : (states.length + 2) * (states.length + 2) =
      (states.length + 2) * states.length + (states.length + 2) * 2 := by
    ring
  omega

/-- C4: `_verify_no_dead_ends` raises exactly when some state cannot
reach a terminal state through non-fallback outcomes (fallbacks do not
count); the single `ValidationError` carries all such states (modelled in
dict key order, since the source materializes an unordered Python set
difference); and the `{A(init) → B, B → A}`, no-terminal example raises
naming both A and B. -/
theorem verify_no_dead_ends_spec :
    (∀ (reg : String → Bool) (exp : Exploration),
      (Dict.keys exp.states).Nodup →
      ((_verify_no_dead_ends reg exp = Except.ok () ↔
        ∀ n ∈ Dict.keys exp.states, CanReachTerminal reg exp.states n) ∧
       (∀ l, _verify_no_dead_ends reg exp =
          Except.error (PyError.validationError l) →
        l ≠ [] ∧ ∀ x, (x ∈ l ↔ x ∈ Dict.keys exp.states ∧
          ¬ CanReachTerminal reg exp.states x)))) ∧
    _verify_no_dead_ends fixtureReg fixtureDeadEndExp =
      Except.error (PyError.validationError ["A", "B"]) := by
  constructor
  · intro reg exp hnd
    have hinitsub : ∀ x ∈ deadEndInitQueue reg exp.states,
        x ∈ Dict.keys exp.states := by
      intro x hx
      obtain ⟨p, hp, he, -⟩ := (deadEndInitQueue_mem reg exp.states x).mp hx
      subst he
      exact List.mem_map.mpr ⟨p, hp, rfl⟩
    have hdrain : (deadEndLoop exp.states (verificationFuel exp.states) []
        (deadEndInitQueue reg exp.states)).2 = [] :=
      deadEndLoop_drains exp.states _ [] _ hinitsub
        (loopMeasure_init_le exp.states _
          (deadEndInitQueue_length reg exp.states))
    set F := (deadEndLoop exp.states (verificationFuel exp.states) []
      (deadEndInitQueue reg exp.states)).1 with hF
    have hsound : ∀ x ∈ F, CanReachTerminal reg exp.states x := by
      refine deadEndLoop_sound reg exp.states hnd _ [] _ (by simp) ?_
      intro x hx
      obtain ⟨p, hp, he, ht⟩ := (deadEndInitQueue_mem reg exp.states x).mp hx
      subst he
      refine CanReachTerminal.terminal p.1 p.2 ?_ ht
      exact Dict.get?_eq_some_of_mem_nodup hnd (by rw [Prod.mk.eta]; exact hp)
    have hcomplete : ∀ x, CanReachTerminal reg exp.states x → x ∈ F := by
      intro x hx
      induction hx with
      | terminal n st hget hterm =>
        have hmem : (n, st) ∈ exp.states := Dict.mem_of_get?_eq_some hget
        have hin : n ∈ deadEndInitQueue reg exp.states :=
          (deadEndInitQueue_mem reg exp.states n).mpr ⟨(n, st), hmem, rfl, hterm⟩
        exact deadEndLoop_absorb exp.states _ [] _ hdrain n hin
      | step n st o hget ho hcr ih =>
        refine deadEndLoop_closure exp.states _ [] _ hdrain ?_ n o.dest
          ⟨(n, st), Dict.mem_of_get?_eq_some hget, rfl, o, ho, rfl⟩ ih
        intro y d _ hd
        exact absurd hd (List.not_mem_nil d)
    have hprops := deadEndLoop_props exp.states (verificationFuel exp.states)
      [] (deadEndInitQueue reg exp.states) List.nodup_nil (by simp) hinitsub
    have hFnd : F.Nodup := hprops.1
    have hFsub : ∀ x ∈ F, x ∈ Dict.keys exp.states := hprops.2
    have hlen_iff : exp.states.length = F.length ↔
        ∀ n ∈ Dict.keys exp.states, CanReachTerminal reg exp.states n := by
      constructor
      · intro hL n hkn
        refine hsound n (nodup_subset_full_mem hFnd hnd hFsub ?_ n hkn)
        rw [dict_keys_length, hL]
      · intro hall
        have hksub : ∀ n ∈ Dict.keys exp.states, n ∈ F :=
          fun n hn => hcomplete n (hall n hn)
        have h1 := nodup_subset_length_le hFnd hFsub
        have h2 := nodup_subset_length_le hnd hksub
        rw [← dict_keys_length exp.states]
        omega
    constructor
    · unfold _verify_no_dead_ends
      rw [← hF]
      by_cases hL : exp.states.length = F.length
      · rw [if_neg (not_ne_iff.mpr hL)]
        exact ⟨fun _ => hlen_iff.mp hL, fun _ => rfl⟩
      · rw [if_pos hL]
        constructor
        · intro hc
          exact Except.noConfusion hc
        · intro hall
          exact absurd (hlen_iff.mpr hall) hL
    · intro l hl
      unfold _verify_no_dead_ends at hl
      rw [← hF] at hl
      by_cases hL : exp.states.length = F.length
      · rw [if_neg (not_ne_iff.mpr hL)] at hl
        exact Except.noConfusion hl
      · rw [if_pos hL] at hl
        have hleq : l = (Dict.keys exp.states).filter (fun n => n ∉ F) := by
          have := Except.error.inj hl
          exact (PyError.validationError.inj this).symm
        subst hleq
        constructor
        · intro hnil
          apply hL
          apply hlen_iff.mpr
          intro n hn
          refine hsound n ?_
          by_contra hnf
          have : n ∈ (Dict.keys exp.states).filter (fun m => m ∉ F) := by
            rw [List.mem_filter]
            exact ⟨hn, by simpa using hnf⟩
          rw [hnil] at this
          cases this
        · intro x
          rw [List.mem_filter]
          constructor
          · rintro ⟨hx1, hx2⟩
            refine ⟨hx1, fun hcr => ?_⟩
            have := hcomplete x hcr
            simp [this] at hx2
          · rintro ⟨hx1, hx2⟩
            refine ⟨hx1, ?_⟩
            simpa using fun hxf => hx2 (hsound x hxf)
  · decide

/-- Witness for `verify_no_dead_ends_spec` at the concrete dead-end
example (hypothesis: its state keys are distinct). -/
theorem verify_no_dead_ends_spec_witness :
    _verify_no_dead_ends fixtureReg fixtureDeadEndExp = Except.ok () ↔
      ∀ n ∈ Dict.keys fixtureDeadEndExp.states,
        CanReachTerminal fixtureReg fixtureDeadEndExp.states n :=
  (verify_no_dead_ends_spec.1 fixtureReg fixtureDeadEndExp (by decide)).1

theorem reachableLoop_cons (reg : String → Bool) (states : Dict State)
    (fuel : Nat) (processed : List String) (curr : String)
    (rest : List String) :
    reachableLoop reg states (fuel + 1) processed (curr :: rest) =
      if curr ∈ processed then reachableLoop reg states fuel processed rest
      else
        match Dict.get? states curr with
        | none => Except.error (PyError.keyError curr)
        | some st =>
          if st.interaction.is_terminal reg then
            reachableLoop reg states fuel (processed ++ [curr]) rest
          else
            reachableLoop reg states fuel (processed ++ [curr])
              (reachableEnqueue st.interaction.get_all_outcomes
                (processed ++ [curr]) rest) := rfl

theorem reachableLoop_run (reg : String → Bool) (states : Dict State)
    (hclosed : ∀ p ∈ states, ∀ o ∈ p.2.interaction.get_all_outcomes,
      o.dest ∈ Dict.keys states) :
    ∀ (fuel : Nat) (processed queue : List String),
      processed.Nodup → (∀ x ∈ processed, x ∈ Dict.keys states) →
      (∀ x ∈ queue, x ∈ Dict.keys states) →
      loopMeasure states processed queue ≤ fuel →
      ∃ pr, reachableLoop reg states fuel processed queue =
          Except.ok (pr, []) ∧
        pr.Nodup ∧ (∀ x ∈ pr, x ∈ Dict.keys states) ∧
        (∀ x ∈ processed, x ∈ pr) ∧ (∀ x ∈ queue, x ∈ pr) := by
  intro fuel
  induction fuel with
  | zero =>
    intro processed queue h1 h2 _ hm
    have hlen : queue.length = 0 := by
      unfold loopMeasure at hm
      omega
    have hq : queue = [] := List.length_eq_zero.mp hlen
    subst hq
    exact ⟨processed, rfl, h1, h2, fun x hx => hx, by simp⟩
  | succ fuel ih =>
    intro processed queue h1 h2 h3 hm
    cases queue with
    | nil => exact ⟨processed, rfl, h1, h2, fun x hx => hx, by simp⟩
    | cons curr rest =>
      rw [reachableLoop_cons]
      by_cases h : curr ∈ processed
      · rw [if_pos h]
        have hm2 : loopMeasure states processed rest ≤ fuel := by
          unfold loopMeasure at hm ⊢
          rw [List.length_cons] at hm
          omega
        obtain ⟨pr, hrun, hprnd, hprsub, hmono, hqin⟩ :=
          ih processed rest h1 h2
            (fun x hx => h3 x (List.mem_cons_of_mem _ hx)) hm2
        refine ⟨pr, hrun, hprnd, hprsub, hmono, ?_⟩
        intro x hx
        rcases List.mem_cons.mp hx with hx1 | hx1
        · subst hx1
          exact hmono x h
        · exact hqin x hx1
      · rw [if_neg h]
        have hcurr : curr ∈ Dict.keys states :=
          h3 curr (List.mem_cons_self _ _)
        obtain ⟨st, hst⟩ := Option.isSome_iff_exists.mp
          ((Dict.get?_isSome_iff_mem_keys states curr).mpr hcurr)
        have hstep : (match Dict.get? states curr with
            | none => Except.error (PyError.keyError curr)
            | some st2 =>
              if st2.interaction.is_terminal reg then
                reachableLoop reg states fuel (processed ++ [curr]) rest
              else
                reachableLoop reg states fuel (processed ++ [curr])
                  (reachableEnqueue st2.interaction.get_all_outcomes
                    (processed ++ [curr]) rest)) =
            (if st.interaction.is_terminal reg then
              reachableLoop reg states fuel (processed ++ [curr]) rest
            else
              reachableLoop reg states fuel (processed ++ [curr])
                (reachableEnqueue st.interaction.get_all_outcomes
                  (processed ++ [curr]) rest)) := by
          rw [hst]
        rw [hstep]
        have hmemst : (curr, st) ∈ states := Dict.mem_of_get?_eq_some hst
        have h1b : (processed ++ [curr]).Nodup := by
          simp [List.nodup_append, h1, h]
        have h2b : ∀ x ∈ processed ++ [curr], x ∈ Dict.keys states := by
          intro x hx
          rcases List.mem_append.mp hx with hx1 | hx1
          · exact h2 x hx1
          · rw [List.mem_singleton] at hx1
            subst hx1
            exact hcurr
        have hu : unprocessedCount states (processed ++ [curr]) + 1 ≤
            unprocessedCount states processed :=
          unprocessedCount_append_lt states processed curr hcurr h
        have hmul := Nat.mul_le_mul_left (states.length + 2) hu
        rw [Nat.mul_succ] at hmul
        by_cases hterm : st.interaction.is_terminal reg = true
        · rw [if_pos hterm]
          have hm2 : loopMeasure states (processed ++ [curr]) rest ≤ fuel := by
            unfold loopMeasure at hm ⊢
            rw [List.length_cons] at hm
            omega
          obtain ⟨pr, hrun, hprnd, hprsub, hmono, hqin⟩ :=
            ih (processed ++ [curr]) rest h1b h2b
              (fun x hx => h3 x (List.mem_cons_of_mem _ hx)) hm2
          refine ⟨pr, hrun, hprnd, hprsub,
            fun x hx => hmono x (List.mem_append_left _ hx), ?_⟩
          intro x hx
          rcases List.mem_cons.mp hx with hx1 | hx1
          · subst hx1
            exact hmono x (List.mem_append_right _ (by simp))
          · exact hqin x hx1
        · rw [if_neg hterm]
          obtain ⟨ext, heq, hnd, hprop⟩ := reachableEnqueue_structure
            st.interaction.get_all_outcomes (processed ++ [curr]) rest
          rw [heq]
          have hextsub : ∀ x ∈ ext, x ∈ Dict.keys states := by
            intro x hx
            obtain ⟨⟨o, ho, hdest⟩, -, -⟩ := hprop x hx
            subst hdest
            exact hclosed (curr, st) hmemst o ho
          have hext : ext.length ≤ states.length := by
            have h4 := nodup_subset_length_le hnd hextsub
            rw [dict_keys_length] at h4
            exact h4
          have h3b : ∀ x ∈ rest ++ ext, x ∈ Dict.keys states := by
            intro x hx
            rcases List.mem_append.mp hx with hx1 | hx1
            · exact h3 x (List.mem_cons_of_mem _ hx1)
            · exact hextsub x hx1
          have hm2 : loopMeasure states (processed ++ [curr])
              (rest ++ ext) ≤ fuel := by
            unfold loopMeasure at hm ⊢
            rw [List.length_cons] at hm
            rw [List.length_append]
            omega
          obtain ⟨pr, hrun, hprnd, hprsub, hmono, hqin⟩ :=
            ih (processed ++ [curr]) (rest ++ ext) h1b h2b h3b hm2
          refine ⟨pr, hrun, hprnd, hprsub,
            fun x hx => hmono x (List.mem_append_left _ hx), ?_⟩
          intro x hx
          rcases List.mem_cons.mp hx with hx1 | hx1
          · subst hx1
            exact hmono x (List.mem_append_right _ (by simp))
          · exact hqin x (List.mem_append_left _ hx1)

/-- C3: `_verify_all_states_reachable` performs the FIFO breadth-first
traversal from `init_state_name` over every non-terminal state's full
outcome set; on a closed graph the queue drains without `KeyError`, the
validator raises exactly when some state was not visited, the single
`ValidationError` carries exactly the unvisited state names (modelled in
dict key order, since the source materializes an unordered Python set
difference); and the `{A(init) → B, B → C(terminal), D}` example raises
naming exactly D. -/
theorem verify_all_states_reachable_spec :
    (∀ (reg : String → Bool) (exp : Exploration),
      (Dict.keys exp.states).Nodup →
      exp.init_state_name ∈ Dict.keys exp.states →
      (∀ p ∈ exp.states, ∀ o ∈ p.2.interaction.get_all_outcomes,
        o.dest ∈ Dict.keys exp.states) →
      ∃ processed,
        reachableLoop reg exp.states (verificationFuel exp.states) []
          [exp.init_state_name] = Except.ok (processed, []) ∧
        (_verify_all_states_reachable reg exp = Except.ok () ↔
          ∀ n ∈ Dict.keys exp.states, n ∈ processed) ∧
        (∀ l, _verify_all_states_reachable reg exp =
            Except.error (PyError.validationError l) →
          l ≠ [] ∧ ∀ x, (x ∈ l ↔ x ∈ Dict.keys exp.states ∧
            x ∉ processed)) ∧
        ((∃ n ∈ Dict.keys exp.states, n ∉ processed) →
          _verify_all_states_reachable reg exp =
            Except.error (PyError.validationError
              ((Dict.keys exp.states).filter (fun n => n ∉ processed))))) ∧
    _verify_all_states_reachable fixtureReg fixtureReachExp =
      Except.error (PyError.validationError ["D"]) := by
  constructor
  · intro reg exp hnd hinit hclosed
    have hqlen : ([exp.init_state_name] : List String).length ≤
        exp.states.length := by
      rw [List.length_singleton, ← dict_keys_length]
      exact List.length_pos.mpr (List.ne_nil_of_mem hinit)
    obtain ⟨processed, hrun, hprnd, hprsub, -, -⟩ :=
      reachableLoop_run reg exp.states hclosed
        (verificationFuel exp.states) [] [exp.init_state_name]
        List.nodup_nil (by simp)
        (by intro x hx; rw [List.mem_singleton] at hx; subst hx; exact hinit)
        (loopMeasure_init_le exp.states _ hqlen)
    have hV : _verify_all_states_reachable reg exp =
        (if exp.states.length ≠ processed.length then
          Except.error (PyError.validationError
            ((Dict.keys exp.states).filter (fun n => n ∉ processed)))
        else Except.ok ()) := by
      unfold _verify_all_states_reachable
      rw [hrun]
    have hlen_iff : exp.states.length = processed.length ↔
        ∀ n ∈ Dict.keys exp.states, n ∈ processed := by
      constructor
      · intro hL n hkn
        refine nodup_subset_full_mem hprnd hnd hprsub ?_ n hkn
        rw [dict_keys_length, hL]
      · intro hall
        have h1 := nodup_subset_length_le hprnd hprsub
        have h2 := nodup_subset_length_le hnd hall
        rw [← dict_keys_length exp.states]
        omega
    refine ⟨processed, hrun, ?_, ?_, ?_⟩
    · rw [hV]
      by_cases hL : exp.states.length = processed.length
      · rw [if_neg (not_ne_iff.mpr hL)]
        exact ⟨fun _ => hlen_iff.mp hL, fun _ => rfl⟩
      · rw [if_pos hL]
        constructor
        · intro hc
          exact Except.noConfusion hc
        · intro hall
          exact absurd (hlen_iff.mpr hall) hL
    · intro l hl
      rw [hV] at hl
      by_cases hL : exp.states.length = processed.length
      · rw [if_neg (not_ne_iff.mpr hL)] at hl
        exact Except.noConfusion hl
      · rw [if_pos hL] at hl
        have hleq : l = (Dict.keys exp.states).filter
            (fun n => n ∉ processed) := by
          have := Except.error.inj hl
          exact (PyError.validationError.inj this).symm
        subst hleq
        constructor
        · intro hnil
          apply hL
          apply hlen_iff.mpr
          intro n hn
          by_contra hnf
          have : n ∈ (Dict.keys exp.states).filter
              (fun m => m ∉ processed) := by
            rw [List.mem_filter]
            exact ⟨hn, by simpa using hnf⟩
          rw [hnil] at this
          cases this
        · intro x
          rw [List.mem_filter]
          constructor
          · rintro ⟨hx1, hx2⟩
            exact ⟨hx1, by simpa using hx2⟩
          · rintro ⟨hx1, hx2⟩
            exact ⟨hx1, by simpa using hx2⟩
    · intro ⟨n, hn, hnp⟩
      rw [hV, if_pos ?_]
      intro hL
      exact hnp (hlen_iff.mp hL n hn)
  · decide

/-- Witness for `verify_all_states_reachable_spec` at the concrete
reachability example. -/
theorem verify_all_states_reachable_spec_witness :
    ∃ processed,
      reachableLoop fixtureReg fixtureReachExp.states
        (verificationFuel fixtureReachExp.states) [] ["A"] =
        Except.ok (processed, []) ∧
      (_verify_all_states_reachable fixtureReg fixtureReachExp =
        Except.ok () ↔
        ∀ n ∈ Dict.keys fixtureReachExp.states, n ∈ processed) := by
  obtain ⟨pr, h1, h2, -⟩ := verify_all_states_reachable_spec.1 fixtureReg
    fixtureReachExp (by decide) (by decide) (by decide)
  exact ⟨pr, h1, h2⟩

end ExpDomain
